import Mathlib

/-!
Verification development for the Azul engine.

The definitions below are a shallow embedding of the Rust sources:
  - the game rules from src/lib.rs (tiles, boards, states, legal moves,
    move application, the wall-tiling phase);
  - the generic search engine from src/ai/mcts_lib.rs;
  - the policy masking from src/ai/mcts_nn_ai.rs;
  - the stateful UCT agent from src/ai/mcts_ai.rs.

Machine floats (f32 and f64) are embedded as rationals; the f32 and f64
square root and natural logarithm primitives, which have no exact rational
counterpart, are passed in as explicit function parameters of the engine
definitions. Machine integers (u32, usize) are embedded as naturals, with
the saturating subtraction of u32 becoming truncated subtraction on Nat.
-/

namespace Azul

/-- Tile colors, from the Tile enum in src/lib.rs. -/
inductive Tile
  | blue
  | yellow
  | red
  | black
  | white
deriving DecidableEq, Repr

instance : Inhabited Tile := ⟨Tile.blue⟩

/-- Source of a move: a factory (by index) or the shared center pool. -/
inductive MoveSource
  | factory (idx : Nat)
  | center
deriving DecidableEq, Repr

/-- Destination of a move: a pattern line (by index) or the floor line. -/
inductive MoveDestination
  | patternLine (idx : Nat)
  | floor
deriving DecidableEq, Repr

/-- A drafting move, from the Move struct in src/lib.rs. -/
structure Move where
  source : MoveSource
  tile : Tile
  destination : MoveDestination
deriving DecidableEq, Repr

/-- A player board, from the PlayerBoard struct in src/lib.rs.
The u32 score is embedded as a natural number. -/
structure PlayerBoard where
  score : Nat
  pattern_lines : List (List Tile)
  wall : List (List (Option Tile))
  floor_line : List Tile
  has_first_player_marker : Bool
deriving DecidableEq, Repr

/-- A fresh player board, mirroring PlayerBoard::new. -/
def PlayerBoard.fresh : PlayerBoard :=
  { score := 0
    pattern_lines := [[], [], [], [], []]
    wall := List.replicate 5 (List.replicate 5 none)
    floor_line := []
    has_first_player_marker := false }

instance : Inhabited PlayerBoard := ⟨PlayerBoard.fresh⟩

/-- The full game state, from the GameState struct in src/lib.rs. -/
structure GameState where
  players : List PlayerBoard
  factories : List (List Tile)
  center : List Tile
  tile_bag : List Tile
  discard_pile : List Tile
  current_player_idx : Nat
  first_player_marker_in_center : Bool
  end_game_triggered : Bool
deriving DecidableEq, Repr

instance : Inhabited GameState :=
  ⟨{ players := [], factories := [], center := [], tile_bag := [],
     discard_pile := [], current_player_idx := 0,
     first_player_marker_in_center := false, end_game_triggered := false }⟩

/-- Number of pattern and wall rows (NUM_ROWS in src/lib.rs). -/
def NUM_ROWS : Nat := 5

/-- Number of wall columns (NUM_COLS in src/lib.rs). -/
def NUM_COLS : Nat := 5

/-- Floor penalties (FLOOR_PENALTY_VALUES in src/lib.rs). -/
def FLOOR_PENALTY_VALUES : List Nat := [1, 1, 2, 2, 2, 3, 3]

/-- The fixed wall color layout (WALL_LAYOUT in src/lib.rs). -/
def WALL_LAYOUT : List (List Tile) :=
  [ [.blue, .yellow, .red, .black, .white]
  , [.white, .blue, .yellow, .red, .black]
  , [.black, .white, .blue, .yellow, .red]
  , [.red, .black, .white, .blue, .yellow]
  , [.yellow, .red, .black, .white, .blue] ]

/-- PlayerBoard::is_placement_valid from src/lib.rs: a tile color may be
placed on a pattern line when the line is not full, the line is empty or
holds the same color, and the matching wall cell of that row is free. -/
def PlayerBoard.is_placement_valid (b : PlayerBoard) (pattern_line_idx : Nat)
    (tile_color : Tile) : Bool :=
  let line := b.pattern_lines.getD pattern_line_idx []
  if pattern_line_idx + 1 ≤ line.length then false
  else if !line.isEmpty && line.getD 0 default ≠ tile_color then false
  else
    match (WALL_LAYOUT.getD pattern_line_idx []).findIdx? (· = tile_color) with
    | some col_idx =>
        ((b.wall.getD pattern_line_idx []).getD col_idx none).isNone
    | none => true

/-- The moves generated for one nonempty source, mirroring the
generate_moves_for_source closure of GameState::get_legal_moves. The Rust
code iterates over a HashSet of the tiles of the source; we iterate over
the duplicate-free sublist keeping first occurrences, which has the same
elements. -/
def generateMovesForSource (board : PlayerBoard) (source : MoveSource)
    (tiles : List Tile) : List Move :=
  tiles.dedup.flatMap fun tile =>
    ((List.range NUM_ROWS).filterMap fun i =>
      if board.is_placement_valid i tile then
        some { source := source, tile := tile, destination := .patternLine i }
      else none)
    ++ [{ source := source, tile := tile, destination := .floor }]

/-- GameState::get_legal_moves from src/lib.rs. -/
def GameState.get_legal_moves (s : GameState) : List Move :=
  let board := s.players.getD s.current_player_idx default
  (s.factories.enum.flatMap fun p =>
    if p.2.isEmpty then [] else generateMovesForSource board (.factory p.1) p.2)
  ++ (if s.center.isEmpty then [] else generateMovesForSource board .center s.center)

/-- GameState::is_round_over from src/lib.rs. -/
def GameState.is_round_over (s : GameState) : Bool :=
  s.factories.all (·.isEmpty) && s.center.isEmpty

/-- The while loop of PlayerBoard::place_tiles for a pattern line: move
tiles (popped from the back of the taken vector) onto the line until the
line is full or the tiles run out; returns the line and the leftover. -/
def fillLine (line : List Tile) (cap : Nat) (tiles : List Tile) :
    List Tile × List Tile :=
  if h : tiles.isEmpty ∨ cap ≤ line.length then (line, tiles)
  else
    fillLine (line ++ [tiles.getLastD default]) cap tiles.dropLast
termination_by tiles.length
decreasing_by
  have hne : tiles.length ≠ 0 := by
    intro hlen
    exact h (Or.inl (by simpa [List.isEmpty_iff, List.length_eq_zero] using hlen))
  simp only [List.length_dropLast]
  omega

/-- PlayerBoard::place_tiles from src/lib.rs. -/
def PlayerBoard.place_tiles (b : PlayerBoard) (tiles_to_place : List Tile)
    (destination : MoveDestination) : PlayerBoard :=
  match destination with
  | .floor => { b with floor_line := b.floor_line ++ tiles_to_place }
  | .patternLine idx =>
      let capacity := idx + 1
      let filled := fillLine (b.pattern_lines.getD idx []) capacity tiles_to_place
      { b with
          pattern_lines := b.pattern_lines.set idx filled.1
          floor_line := b.floor_line ++ filled.2 }

/-- PlayerBoard::will_complete_horizontal_row from src/lib.rs. -/
def PlayerBoard.will_complete_horizontal_row (b : PlayerBoard)
    (pattern_line_idx : Nat) : Bool :=
  if (b.pattern_lines.getD pattern_line_idx []).length ≠ pattern_line_idx + 1 then
    false
  else
    ((b.wall.getD pattern_line_idx []).countP (·.isSome)) = 4

/-- GameState::apply_move from src/lib.rs: remove the chosen color from the
source, push the remainder to the center, hand over the first-player marker
on a first take from the center, place the taken tiles, flag the end of the
game when a wall row is about to complete, and advance the turn. -/
def GameState.apply_move (s : GameState) (player_move : Move) : GameState :=
  let pIdx := s.current_player_idx
  let player := s.players.getD pIdx default
  let source_tiles :=
    match player_move.source with
    | .factory idx => s.factories.getD idx []
    | .center => s.center
  let taken_tiles := source_tiles.filter (· = player_move.tile)
  let remaining := source_tiles.filter (¬ · = player_move.tile)
  let factories1 :=
    match player_move.source with
    | .factory idx => s.factories.set idx []
    | .center => s.factories
  let center1 :=
    match player_move.source with
    | .factory _ => s.center ++ remaining
    | .center => remaining
  let tookMarker :=
    match player_move.source with
    | .factory _ => false
    | .center => s.first_player_marker_in_center
  let player1 :=
    if tookMarker then { player with has_first_player_marker := true } else player
  let player2 := player1.place_tiles taken_tiles player_move.destination
  let egt :=
    match player_move.destination with
    | .patternLine idx =>
        if !s.end_game_triggered && player2.will_complete_horizontal_row idx then
          true
        else s.end_game_triggered
    | .floor => s.end_game_triggered
  { s with
      players := s.players.set pIdx player2
      factories := factories1
      center := center1
      first_player_marker_in_center :=
        s.first_player_marker_in_center && !tookMarker
      end_game_triggered := egt
      current_player_idx := (pIdx + 1) % s.players.length }

/-- Length of the leading run of filled cells, used to translate the four
scanning loops of PlayerBoard::calculate_placement_score. -/
def runLen (cells : List (Option Tile)) : Nat :=
  (cells.takeWhile Option.isSome).length

/-- PlayerBoard::calculate_placement_score from src/lib.rs, reading the
given wall: contiguous horizontal and vertical runs through the new cell,
summed when both directions connect, otherwise the larger of the two. -/
def calculate_placement_score (wall : List (List (Option Tile)))
    (row col : Nat) : Nat :=
  let rowCells := wall.getD row []
  let colCells := wall.map fun r => r.getD col none
  let horizontal := 1 + runLen (rowCells.take col).reverse + runLen (rowCells.drop (col + 1))
  let vertical := 1 + runLen (colCells.take row).reverse + runLen (colCells.drop (row + 1))
  if 1 < horizontal ∧ 1 < vertical then horizontal + vertical
  else max horizontal vertical

/-- Accumulator for the row loop of PlayerBoard::run_tiling_phase. -/
structure TilingAcc where
  pattern_lines : List (List Tile)
  wall : List (List (Option Tile))
  new_score : Nat
  tiles_to_discard : List (List Tile)
  completed_a_row : Bool

/-- One iteration of the row loop of PlayerBoard::run_tiling_phase: a full
pattern line moves one tile onto the wall, scores it against the wall built
so far, and queues the rest of the line for the discard pile. -/
def tilingRowStep (acc : TilingAcc) (row_idx : Nat) : TilingAcc :=
  let line := acc.pattern_lines.getD row_idx []
  if line.length = row_idx + 1 then
    let tile_color := line.getD 0 default
    match (WALL_LAYOUT.getD row_idx []).findIdx? (· = tile_color) with
    | some col_idx =>
        if ((acc.wall.getD row_idx []).getD col_idx none).isNone then
          let score2 := acc.new_score + calculate_placement_score acc.wall row_idx col_idx
          let wall2 := acc.wall.set row_idx
            ((acc.wall.getD row_idx []).set col_idx (some tile_color))
          let completed2 :=
            acc.completed_a_row ||
              ((wall2.getD row_idx []).all (·.isSome))
          { pattern_lines := acc.pattern_lines.set row_idx []
            wall := wall2
            new_score := score2
            tiles_to_discard := acc.tiles_to_discard.set row_idx line
            completed_a_row := completed2 }
        else acc
    | none => acc
  else acc

/-- The full row loop of PlayerBoard::run_tiling_phase over rows 0..5. -/
def tilingRows (b : PlayerBoard) : TilingAcc :=
  (List.range NUM_ROWS).foldl tilingRowStep
    { pattern_lines := b.pattern_lines
      wall := b.wall
      new_score := 0
      tiles_to_discard := List.replicate NUM_ROWS []
      completed_a_row := false }

/-- The floor items counted by PlayerBoard::run_tiling_phase: the floor
tiles plus one for the first-player marker. -/
def PlayerBoard.floorItemsCount (b : PlayerBoard) : Nat :=
  b.floor_line.length + (if b.has_first_player_marker then 1 else 0)

/-- The floor penalty charged by PlayerBoard::run_tiling_phase: the sum of
the first floorItemsCount entries of FLOOR_PENALTY_VALUES, capped at 7. -/
def PlayerBoard.floorPenalty (b : PlayerBoard) : Nat :=
  if 0 < b.floorItemsCount then
    (FLOOR_PENALTY_VALUES.take (min b.floorItemsCount 7)).sum
  else 0

/-- PlayerBoard::run_tiling_phase from src/lib.rs. Scoring adds the
placement points and then subtracts the floor penalty with u32 saturating
subtraction, embedded as truncated subtraction on Nat. Returns the new
board, the tiles appended to the discard pile, and whether a wall row was
completed. -/
def PlayerBoard.run_tiling_phase (b : PlayerBoard) :
    PlayerBoard × List Tile × Bool :=
  let acc := tilingRows b
  let scored := b.score + acc.new_score
  let final_score := scored - b.floorPenalty
  ({ score := final_score
     pattern_lines := acc.pattern_lines
     wall := acc.wall
     floor_line := []
     has_first_player_marker := false },
   acc.tiles_to_discard.flatMap id ++ b.floor_line,
   acc.completed_a_row)

/-- The element of a list maximizing a key, mirroring the semantics of the
Rust iterator adapters max_by and max_by_key: when several elements tie,
the last of them is returned. -/
def maxByLast {α β : Type} [LinearOrder β] (key : α → β) : List α → Option α
  | [] => none
  | x :: xs => some (xs.foldl (fun best y => if key best ≤ key y then y else best) x)

namespace MctsLib

/-- The MctsPolicy trait of src/ai/mcts_lib.rs, embedded as a record of the
two required operations. Scalar f32 values are embedded as rationals. -/
structure MctsPolicy where
  evaluate : GameState → ℚ × List (Move × ℚ)
  simulate : GameState → List ℚ

/-- The Node struct of src/ai/mcts_lib.rs. -/
structure Node where
  parent : Option Nat
  children : List (Move × Nat)
  untried_moves : List Move
  visit_count : Nat
  total_action_value : ℚ
  prior_probability : ℚ
  game_state : GameState

instance : Inhabited Node :=
  ⟨{ parent := none, children := [], untried_moves := [], visit_count := 0,
     total_action_value := 0, prior_probability := 0, game_state := default }⟩

/-- Node::new from src/ai/mcts_lib.rs: a fresh node holding the state, with
the legal moves of the state as its untried moves. -/
def Node.new (parent : Option Nat) (prior : ℚ) (game_state : GameState) : Node :=
  { parent := parent
    children := []
    untried_moves := game_state.get_legal_moves
    visit_count := 0
    total_action_value := 0
    prior_probability := prior
    game_state := game_state }

/-- Node::mean_action_value from src/ai/mcts_lib.rs. -/
def Node.mean_action_value (n : Node) : ℚ :=
  if n.visit_count = 0 then 0 else n.total_action_value / n.visit_count

/-- The Mcts struct of src/ai/mcts_lib.rs: the arena of nodes plus the
policy handler. -/
structure Mcts where
  tree : List Node
  policy_handler : MctsPolicy

/-- Mcts::new from src/ai/mcts_lib.rs: a single-node tree. -/
def Mcts.new (initial_state : GameState) (policy_handler : MctsPolicy) : Mcts :=
  { tree := [Node.new none 1 initial_state], policy_handler := policy_handler }

/-- Mcts::sync_tree_with_state from src/ai/mcts_lib.rs: look for a child of
the root whose player boards equal those of the given state; rebuild the
tree as a fresh single-node tree around that child state when found, and
around the given state otherwise. -/
def Mcts.sync_tree_with_state (m : Mcts) (current_game_state : GameState) : Mcts :=
  let root := m.tree.getD 0 default
  let matching_child_idx :=
    (root.children.find? fun p =>
      (m.tree.getD p.2 default).game_state.players = current_game_state.players).map
      (fun p => p.2)
  match matching_child_idx with
  | some child_idx =>
      Mcts.new (m.tree.getD child_idx default).game_state m.policy_handler
  | none => Mcts.new current_game_state m.policy_handler

/-- Mcts::best_move from src/ai/mcts_lib.rs: the move of the root child
with the highest visit count, none when the root has no children. -/
def Mcts.best_move (m : Mcts) : Option Move :=
  if m.tree.isEmpty then none
  else
    (maxByLast (fun p => (m.tree.getD p.2 default).visit_count)
      (m.tree.getD 0 default).children).map
      (fun p => p.1)

/-- Mcts::puct_score from src/ai/mcts_lib.rs. The f32 square root applied
to the parent visit count is passed in as the function sq. Note that the
mean action value enters with a positive sign. -/
def puct_score (sq : Nat → ℚ) (tree : List Node) (node_idx : Nat)
    (parent_visit_count : Nat) : ℚ :=
  let node := tree.getD node_idx default
  let exploration_constant : ℚ := 141 / 100
  let q_value := node.mean_action_value
  let p_value := node.prior_probability
  let exploration_term :=
    exploration_constant * p_value * sq parent_visit_count / (1 + node.visit_count)
  q_value + exploration_term

/-- The descent loop of Mcts::select_and_expand: starting from the root,
stop at the first node with untried moves or with no children, otherwise
descend into the child maximizing puct_score. The loop of the source
terminates because children always have larger indices than their parents;
the embedding carries explicit fuel, set to the arena size by callers,
which the well-formedness lemmas below prove sufficient. -/
def selTarget (sq : Nat → ℚ) (tree : List Node) : Nat → Nat → Nat
  | idx, 0 => idx
  | idx, fuel + 1 =>
      if ¬ (tree.getD idx default).untried_moves.isEmpty then idx
      else if (tree.getD idx default).children.isEmpty then idx
      else
        selTarget sq tree
          ((maxByLast
            (fun child_idx =>
              puct_score sq tree child_idx (tree.getD idx default).visit_count)
            ((tree.getD idx default).children.map Prod.snd)).getD 0) fuel

/-- Mcts::select_and_expand from src/ai/mcts_lib.rs: walk down with
selTarget; when the reached node still has untried moves, pop the last one,
apply it to a clone of the state, and append a new child node whose prior
is one over the new number of children. Returns the mutated engine and the
index of the node to simulate from. -/
def Mcts.select_and_expand (sq : Nat → ℚ) (m : Mcts) : Mcts × Nat :=
  let idx := selTarget sq m.tree 0 m.tree.length
  let node := m.tree.getD idx default
  match node.untried_moves.getLast? with
  | none => (m, idx)
  | some next_move =>
      let new_state := node.game_state.apply_move next_move
      let prior_prob : ℚ := 1 / (node.children.length + 1)
      let new_node_idx := m.tree.length
      let node2 :=
        { node with
            untried_moves := node.untried_moves.dropLast
            children := node.children ++ [(next_move, new_node_idx)] }
      ({ tree := m.tree.set idx node2 ++ [Node.new (some idx) prior_prob new_state]
         policy_handler := m.policy_handler },
       new_node_idx)

/-- The parent chain walked by Mcts::backpropagation, as a list of indices
starting at the given node and ending at the root. Fuel bounds the walk;
the source loop terminates because parent indices strictly decrease. -/
def chainAux (tree : List Node) : Option Nat → Nat → List Nat
  | none, _ => []
  | some _, 0 => []
  | some idx, fuel + 1 =>
      idx :: chainAux tree (tree.getD idx default).parent fuel

/-- The backpropagation chain from a start node: the node and all of its
ancestors up to the root. -/
def chain (tree : List Node) (start : Nat) : List Nat :=
  chainAux tree (some start) tree.length

/-- The per-node update of Mcts::backpropagation: one more visit, and the
score of the player to act at the node added to the accumulated value. -/
def bumpNode (scores : List ℚ) (n : Node) : Node :=
  { n with
      visit_count := n.visit_count + 1
      total_action_value :=
        n.total_action_value + scores.getD n.game_state.current_player_idx 0 }

/-- The walking loop of Mcts::backpropagation, with fuel as in chainAux. -/
def backpropAux (scores : List ℚ) : List Node → Option Nat → Nat → List Node
  | tree, none, _ => tree
  | tree, some _, 0 => tree
  | tree, some idx, fuel + 1 =>
      let node := tree.getD idx default
      backpropAux scores (tree.set idx (bumpNode scores node)) node.parent fuel

/-- Mcts::backpropagation from src/ai/mcts_lib.rs: bump every node on the
parent chain from the start node to the root. -/
def backpropagation (tree : List Node) (start_idx : Nat) (scores : List ℚ) :
    List Node :=
  backpropAux scores tree (some start_idx) tree.length

/-- One iteration of the loop of Mcts::run_search: select and expand, run
the simulate operation of the policy on the state of the reached node, and
backpropagate the returned scores. -/
def Mcts.step (sq : Nat → ℚ) (m : Mcts) : Mcts :=
  let sel := m.select_and_expand sq
  let sim_game_state := (sel.1.tree.getD sel.2 default).game_state
  let scores := m.policy_handler.simulate sim_game_state
  { tree := backpropagation sel.1.tree sel.2 scores
    policy_handler := m.policy_handler }

/-- Mcts::run_search from src/ai/mcts_lib.rs: the given number of
iterations of the search loop. -/
def Mcts.run_search (sq : Nat → ℚ) (m : Mcts) (iterations : Nat) : Mcts :=
  (Mcts.step sq)^[iterations] m

/-- The index of the node an iteration simulates from and backpropagates
from: specification-side shorthand for the second component of
select_and_expand. -/
def Mcts.startIdx (sq : Nat → ℚ) (m : Mcts) : Nat :=
  (m.select_and_expand sq).2

/-- The arena as it stands between expansion and backpropagation:
specification-side shorthand for the first component of select_and_expand. -/
def Mcts.midTree (sq : Nat → ℚ) (m : Mcts) : List Node :=
  (m.select_and_expand sq).1.tree

/-- The selection and backpropagation path of one iteration: the expanded
or selected node and all of its ancestors. -/
def Mcts.pathOf (sq : Nat → ℚ) (m : Mcts) : List Nat :=
  chain (m.midTree sq) (m.startIdx sq)

/-- The ancestor chain of a node, defined by well-founded recursion on the
index instead of fuel; on well-formed arenas, where parent indices strictly
decrease, it agrees with the fuelled chain walked by backpropagation. -/
def chainFrom (tree : List Node) (idx : Nat) : List Nat :=
  idx ::
    (match h : (tree.getD idx default).parent with
     | none => []
     | some p => if hp : p < idx then chainFrom tree p else [])
termination_by idx

/-- Well-formedness of the node arena, maintained by the search loop: the
arena is nonempty, exactly the root (index 0) is parentless, parents come
before their children in the arena, child links point inside the arena and
agree with parent links in both directions, and no node is registered twice
among the children of a node. -/
structure WFTree (tree : List Node) : Prop where
  nonempty : tree ≠ []
  parent_root : ∀ i, i < tree.length → ((tree.getD i default).parent = none ↔ i = 0)
  parent_lt : ∀ i p, i < tree.length → (tree.getD i default).parent = some p → p < i
  child_link : ∀ i mv c, i < tree.length → (mv, c) ∈ (tree.getD i default).children →
    c < tree.length ∧ (tree.getD c default).parent = some i
  child_nodup : ∀ i, i < tree.length → ((tree.getD i default).children.map Prod.snd).Nodup
  parent_child : ∀ i j, i < tree.length → j < tree.length →
    (tree.getD j default).parent = some i →
    j ∈ (tree.getD i default).children.map Prod.snd

end MctsLib

namespace NnAi

/-- NUM_FACTORIES from src/ai/mcts_nn_ai.rs. -/
def NUM_FACTORIES : Nat := 9

/-- NUM_COLORS from src/ai/mcts_nn_ai.rs. -/
def NUM_COLORS : Nat := 5

/-- POLICY_SIZE from src/ai/mcts_nn_ai.rs: one slot per factory position
and color pair plus one slot per color for the center. -/
def POLICY_SIZE : Nat := NUM_FACTORIES * NUM_COLORS + NUM_COLORS

/-- color_to_index from src/ai/mcts_nn_ai.rs. -/
def color_to_index (tile : Tile) : Nat :=
  match tile with
  | .blue => 0
  | .yellow => 1
  | .red => 2
  | .black => 3
  | .white => 4

/-- move_to_policy_index from src/ai/mcts_nn_ai.rs. -/
def move_to_policy_index (move_tile : Tile) (move_source : MoveSource) :
    Option Nat :=
  let color_idx := color_to_index move_tile
  match move_source with
  | .factory idx => some (idx * NUM_COLORS + color_idx)
  | .center => some (NUM_FACTORIES * NUM_COLORS + color_idx)

/-- Lookup of a key in an association list, mirroring a HashMap get. -/
def alistGet {α β : Type} [DecidableEq α] (k : α) (l : List (α × β)) : Option β :=
  (l.find? fun kv => kv.1 = k).map (fun kv => kv.2)

/-- The unique (source, color) pairs of the legal moves, mirroring the
unique_takes HashMap of NnPolicy::mask_and_normalize_policy. The Rust code
iterates over the key set of a HashMap; we iterate over the duplicate-free
sublist keeping first occurrences, which has the same elements. -/
def uniqueTakes (legal_moves : List Move) : List (MoveSource × Tile) :=
  (legal_moves.map fun m => (m.source, m.tile)).dedup

/-- The masked_policy map built by NnPolicy::mask_and_normalize_policy: for
every unique legal (source, color) pair whose policy slot exists, the raw
output at that slot clipped to be non-negative. -/
def maskedPolicy (legal_moves : List Move) (raw_policy : List ℚ) :
    List ((MoveSource × Tile) × ℚ) :=
  (uniqueTakes legal_moves).filterMap fun st =>
    (move_to_policy_index st.2 st.1).bind fun index =>
      (raw_policy.get? index).map fun prob => (st, max prob 0)

/-- The total_prob accumulator of NnPolicy::mask_and_normalize_policy: the
sum of the clipped raw outputs over the masked slots. -/
def totalProb (legal_moves : List Move) (raw_policy : List ℚ) : ℚ :=
  ((maskedPolicy legal_moves raw_policy).map fun kv => kv.2).sum

/-- NnPolicy::mask_and_normalize_policy from src/ai/mcts_nn_ai.rs: when the
clipped masked total is positive, each legal move is mapped to the clipped
raw output of its (source, color) slot divided by the total; when the
resulting map is empty and legal moves exist, each legal move is mapped to
one over the number of legal moves. -/
def mask_and_normalize_policy (legal_moves : List Move) (raw_policy : List ℚ) :
    List (Move × ℚ) :=
  let masked_policy := maskedPolicy legal_moves raw_policy
  let total_prob := totalProb legal_moves raw_policy
  let final_policy :=
    if 0 < total_prob then
      legal_moves.filterMap fun m =>
        (alistGet (m.source, m.tile) masked_policy).map fun prob =>
          (m, prob / total_prob)
    else []
  if final_policy.isEmpty ∧ ¬ legal_moves.isEmpty then
    legal_moves.map fun m => (m, (1 : ℚ) / legal_moves.length)
  else final_policy

/-- The sum of the probability values of a policy map, one entry per legal
move, as read by the sum property of the specification. -/
def policySum (policy : List (Move × ℚ)) : ℚ :=
  (policy.map fun kv => kv.2).sum

end NnAi

namespace MctsAi

/-- The Node struct of src/ai/mcts_ai.rs: the rollout UCT variant keeps one
accumulated f64 score per player, embedded as rationals. -/
structure Node where
  game_state : GameState
  parent : Option Nat
  children : List Nat
  action : Option Move
  untried_actions : List Move
  visits : Nat
  scores : List ℚ

instance : Inhabited Node :=
  ⟨{ game_state := default, parent := none, children := [], action := none,
     untried_actions := [], visits := 0, scores := [] }⟩

/-- The UCT priority of a child as computed inside
MctsAI::select_and_expand: infinite for an unvisited child, otherwise the
mean score of the child from the perspective of the player to act at the
parent node, plus twice the square root of the log of the parent visits
over the child visits. The f64 natural log and square root are passed in
as the functions lnF and sqF. -/
def uct (lnF sqF : ℚ → ℚ) (nodes : List Node) (parent : Node)
    (child_index : Nat) : WithTop ℚ :=
  let child := nodes.getD child_index default
  if child.visits = 0 then ⊤
  else
    let exploitation :=
      child.scores.getD parent.game_state.current_player_idx 0 / child.visits
    let exploration := 2 * sqF (lnF parent.visits / child.visits)
    (exploitation + exploration : ℚ)

/-- MctsAI::expand from src/ai/mcts_ai.rs: pop the last untried action,
apply it, and append the resulting node to the arena. -/
def expand (nodes : List Node) (node_index : Nat) : List Node × Nat :=
  let node := nodes.getD node_index default
  match node.untried_actions.getLast? with
  | none => (nodes, node_index)
  | some action_to_try =>
      let new_state := node.game_state.apply_move action_to_try
      let new_node : Node :=
        { game_state := new_state
          parent := some node_index
          children := []
          action := some action_to_try
          untried_actions := new_state.get_legal_moves
          visits := 0
          scores := List.replicate (nodes.getD 0 default).game_state.players.length 0 }
      let new_index := nodes.length
      (nodes.set node_index
        { node with
            untried_actions := node.untried_actions.dropLast
            children := node.children ++ [new_index] } ++ [new_node],
       new_index)

/-- The child the UCT rule of MctsAI::select_and_expand descends into from
a fully expanded node: the child of maximal uct priority, the last one on
ties, as produced by the max_by iterator adapter of the source. -/
def bestUctChild (lnF sqF : ℚ → ℚ) (nodes : List Node) (current_index : Nat) :
    Nat :=
  let node := nodes.getD current_index default
  (maxByLast (fun child_index => uct lnF sqF nodes node child_index)
    node.children).getD 0

/-- The selection loop of MctsAI::select_and_expand: expand at the first
node with untried actions, stop at childless nodes, otherwise descend into
the best UCT child. Fuel bounds the loop as in the mcts_lib embedding. -/
def selLoop (lnF sqF : ℚ → ℚ) (nodes : List Node) : Nat → Nat → List Node × Nat
  | current_index, 0 => (nodes, current_index)
  | current_index, fuel + 1 =>
      let node := nodes.getD current_index default
      if ¬ node.untried_actions.isEmpty then expand nodes current_index
      else if node.children.isEmpty then (nodes, current_index)
      else selLoop lnF sqF nodes (bestUctChild lnF sqF nodes current_index) fuel

end MctsAi

/-- The PUCT selection score exactly as the specification words it, for
comparison with the implemented puct_score: the mean action value of the
child enters negated. -/
def specPuctScore (sq : Nat → ℚ) (tree : List MctsLib.Node) (node_idx : Nat)
    (parent_visit_count : Nat) : ℚ :=
  let node := tree.getD node_idx default
  let negated_mean := - node.mean_action_value
  negated_mean +
    (141 / 100 : ℚ) * node.prior_probability * sq parent_visit_count /
      (1 + node.visit_count)

/-- A concrete stand-in for the f32 square root used by the concrete
evaluations below; it agrees with the machine square root on the perfect
squares at which it is applied there. -/
def natSqrtQ (n : Nat) : ℚ := (Nat.sqrt n : ℚ)

/-- A trivial policy for concrete evaluations. -/
def trivialPolicy : MctsLib.MctsPolicy :=
  { evaluate := fun _ => (0, []), simulate := fun _ => [] }

/-- A two-player state with every factory and the center empty: no legal
moves, the round is over. -/
def sEmpty : GameState :=
  { players := [PlayerBoard.fresh, PlayerBoard.fresh]
    factories := [[], [], [], [], []]
    center := []
    tile_bag := []
    discard_pile := []
    current_player_idx := 0
    first_player_marker_in_center := true
    end_game_triggered := false }

/-- A two-player state with a single blue tile in factory 0: six legal
moves, all taking blue from factory 0 (five pattern lines and the floor). -/
def sBlue : GameState :=
  { players := [PlayerBoard.fresh, PlayerBoard.fresh]
    factories := [[Tile.blue]]
    center := []
    tile_bag := []
    discard_pile := []
    current_player_idx := 0
    first_player_marker_in_center := true
    end_game_triggered := false }

/-- A two-player state distinguishable from sEmpty by its player boards. -/
def sSeven : GameState :=
  { sEmpty with
      players := [{ PlayerBoard.fresh with score := 7 }, PlayerBoard.fresh] }

/-- A throwaway move used to populate concrete trees. -/
def mvBlueFloor : Move :=
  { source := .factory 0, tile := .blue, destination := .floor }

/-- A three-node tree for the tree-reuse counterexample: the root has one
child (index 1, five visits) matching sSeven, and that child has one child
of its own (index 2, three visits), so the subtree of the match holds two
nodes of accumulated statistics. -/
def treeReuseMcts : MctsLib.Mcts :=
  { tree :=
      [ { parent := none
          children := [(mvBlueFloor, 1)]
          untried_moves := []
          visit_count := 8
          total_action_value := 2
          prior_probability := 1
          game_state := sEmpty }
      , { parent := some 0
          children := [(mvBlueFloor, 2)]
          untried_moves := []
          visit_count := 5
          total_action_value := 3
          prior_probability := 1 / 2
          game_state := sSeven }
      , { parent := some 1
          children := []
          untried_moves := []
          visit_count := 3
          total_action_value := 1
          prior_probability := 1 / 2
          game_state := sBlue } ]
    policy_handler := trivialPolicy }

/-- A tree for the selection-sign counterexample: the root is fully
expanded with two children of equal prior and equal visit count, one of
mean action value one and one of mean action value minus one, so the
exploration terms agree and selection is decided by the sign convention on
the mean value alone. -/
def signMcts : MctsLib.Mcts :=
  { tree :=
      [ { parent := none
          children := [(mvBlueFloor, 1), (mvBlueFloor, 2)]
          untried_moves := []
          visit_count := 4
          total_action_value := 0
          prior_probability := 1
          game_state := sEmpty }
      , { parent := some 0
          children := []
          untried_moves := [mvBlueFloor]
          visit_count := 1
          total_action_value := 1
          prior_probability := 1 / 2
          game_state := sBlue }
      , { parent := some 0
          children := []
          untried_moves := [mvBlueFloor]
          visit_count := 1
          total_action_value := -1
          prior_probability := 1 / 2
          game_state := sBlue } ]
    policy_handler := trivialPolicy }

/-- A policy whose evaluate operation returns a two-entry move map, for
exhibiting that the search loop neither consults evaluate nor performs a
batch expansion. -/
def twoMovePolicy : MctsLib.MctsPolicy :=
  { evaluate := fun _ =>
      (1 / 2,
       [ ({ source := .factory 0, tile := .blue,
            destination := .patternLine 0 }, 1 / 2)
       , (mvBlueFloor, 1 / 2) ])
    simulate := fun _ => [0, 0] }

/-- A policy agreeing with twoMovePolicy on simulate but differing on
evaluate, exhibiting that the search loop never consults evaluate. -/
def evalDiffPolicy : MctsLib.MctsPolicy :=
  { evaluate := fun _ => (0, [])
    simulate := fun _ => [0, 0] }

/-- A player board with three tiles on the floor line and nothing to tile:
its floor penalty of four exceeds its score of zero. -/
def bFloorThree : PlayerBoard :=
  { PlayerBoard.fresh with floor_line := [Tile.red, Tile.red, Tile.red] }

/-- An all-zero raw policy vector of POLICY_SIZE entries. -/
def rawZero : List ℚ := List.replicate NnAi.POLICY_SIZE 0

/-- A raw policy vector assigning one half to slot 0 (factory 0, blue) and
zero elsewhere. -/
def rawHalf : List ℚ := (1 / 2) :: List.replicate (NnAi.POLICY_SIZE - 1) 0

/-- A concrete arena for the UCT selection witness: the root is fully
expanded with a visited child of positive mean and an unvisited child. -/
def uctNodes : List MctsAi.Node :=
  [ { game_state := sEmpty
      parent := none
      children := [1, 2]
      action := none
      untried_actions := []
      visits := 2
      scores := [0, 0] }
  , { game_state := sBlue
      parent := some 0
      children := []
      action := some mvBlueFloor
      untried_actions := []
      visits := 1
      scores := [3, 0] }
  , { game_state := sBlue
      parent := some 0
      children := []
      action := some mvBlueFloor
      untried_actions := []
      visits := 0
      scores := [0, 0] } ]

section Helpers

variable {α β : Type}

/-- The fold underlying maxByLast produces the seed or a list element, is
at least the seed on the key, and dominates every list element. -/
theorem foldlMax_spec [LinearOrder β] (key : α → β) :
    ∀ (l : List α) (a : α),
      (l.foldl (fun best y => if key best ≤ key y then y else best) a = a ∨
        l.foldl (fun best y => if key best ≤ key y then y else best) a ∈ l) ∧
      key a ≤ key (l.foldl (fun best y => if key best ≤ key y then y else best) a) ∧
      ∀ y ∈ l, key y ≤ key (l.foldl (fun best y => if key best ≤ key y then y else best) a) := by
  intro l
  induction l with
  | nil => exact fun a => ⟨Or.inl rfl, le_refl _, by simp⟩
  | cons y t ih =>
      intro a
      have step : List.foldl (fun best y => if key best ≤ key y then y else best) a (y :: t) =
          List.foldl (fun best y => if key best ≤ key y then y else best)
            (if key a ≤ key y then y else a) t := by
        simp [List.foldl_cons]
      obtain ⟨hmem, hseed, hall⟩ := ih (if key a ≤ key y then y else a)
      refine ⟨?_, ?_, ?_⟩
      · rw [step]
        rcases hmem with h | h
        · rw [h]
          by_cases hc : key a ≤ key y
          · simp [hc]
          · simp [hc]
        · exact Or.inr (List.mem_cons_of_mem _ h)
      · rw [step]
        refine le_trans ?_ hseed
        by_cases hc : key a ≤ key y
        · simpa [hc] using hc
        · simp [hc]
      · intro z hz
        rw [step]
        rcases List.mem_cons.mp hz with hzy | hz
        · rw [hzy]
          refine le_trans ?_ hseed
          by_cases hc : key a ≤ key y
          · simp [hc]
          · simpa [hc] using le_of_not_le hc
        · exact hall z hz

/-- The result of maxByLast is a member of the list that dominates every
member on the key. -/
theorem maxByLast_spec [LinearOrder β] (key : α → β) (l : List α) (x : α)
    (h : maxByLast key l = some x) : x ∈ l ∧ ∀ y ∈ l, key y ≤ key x := by
  match l with
  | [] => simp [maxByLast] at h
  | a :: t =>
      simp only [maxByLast, Option.some.injEq] at h
      obtain ⟨hmem, hseed, hall⟩ := foldlMax_spec key t a
      subst h
      constructor
      · rcases hmem with h | h
        · rw [h]; exact List.mem_cons_self a t
        · exact List.mem_cons_of_mem _ h
      · intro y hy
        rcases List.mem_cons.mp hy with rfl | hy
        · exact hseed
        · exact hall y hy

/-- maxByLast returns a value on any nonempty list. -/
theorem maxByLast_isSome [LinearOrder β] (key : α → β) (l : List α)
    (h : ¬ l.isEmpty) : ∃ x, maxByLast key l = some x := by
  match l with
  | [] => simp at h
  | a :: t => exact ⟨_, rfl⟩

/-- getD after set at the written index. -/
theorem getD_set_self (l : List α) (i : Nat) (a d : α) (h : i < l.length) :
    (l.set i a).getD i d = a := by
  simp [List.getD_eq_getElem?_getD, List.getElem?_set, h]

/-- getD after set at a different index. -/
theorem getD_set_ne (l : List α) (i j : Nat) (a d : α) (h : i ≠ j) :
    (l.set i a).getD j d = l.getD j d := by
  simp [List.getD_eq_getElem?_getD, List.getElem?_set, h]

/-- getD on an append, left part. -/
theorem getD_append_left (l1 l2 : List α) (i : Nat) (d : α) (h : i < l1.length) :
    (l1 ++ l2).getD i d = l1.getD i d := by
  simp [List.getD_eq_getElem?_getD, List.getElem?_append, h]

/-- getD on an append, right part. -/
theorem getD_append_right (l1 l2 : List α) (i : Nat) (d : α) (h : l1.length ≤ i) :
    (l1 ++ l2).getD i d = l2.getD (i - l1.length) d := by
  simp [List.getD_eq_getElem?_getD, List.getElem?_append_right h]

/-- Sums of pointwise sums of natural-valued maps split. -/
theorem sum_map_add (l : List α) (f g : α → Nat) :
    (l.map fun x => f x + g x).sum = (l.map f).sum + (l.map g).sum := by
  induction l with
  | nil => simp
  | cons a t ih =>
      simp [ih]
      omega

/-- A sum of indicator values is a countP. -/
theorem sum_map_indicator (l : List α) (p : α → Prop) [DecidablePred p] :
    (l.map fun x => if p x then (1 : Nat) else 0).sum = l.countP (fun x => decide (p x)) := by
  induction l with
  | nil => simp
  | cons a t ih =>
      by_cases h : p a
      · simp [List.countP_cons, h, ih]
        omega
      · simp [List.countP_cons, h, ih]

/-- A duplicate-free list with exactly one member satisfying a predicate
has countP one for it. -/
theorem countP_eq_one_of_unique (l : List α) (p : α → Bool) (a : α)
    (hnd : l.Nodup) (ha : a ∈ l) (hpa : p a)
    (huniq : ∀ b ∈ l, p b → b = a) : l.countP p = 1 := by
  induction l with
  | nil => simp at ha
  | cons x t ih =>
      rcases List.mem_cons.mp ha with rfl | ha
      · have ht : t.countP p = 0 := by
          rw [List.countP_eq_zero]
          intro b hb hpb
          have := huniq b (List.mem_cons_of_mem _ hb) hpb
          subst this
          exact absurd hb (List.nodup_cons.mp hnd).1
        simp [List.countP_cons, ht, hpa]
      · have hx : ¬ (p x = true) := by
          intro hpx
          have := huniq x (List.mem_cons_self x t) hpx
          subst this
          exact (List.nodup_cons.mp hnd).1 ha
        have := ih (List.nodup_cons.mp hnd).2 ha
          (fun b hb hpb => huniq b (List.mem_cons_of_mem _ hb) hpb)
        simp [List.countP_cons, hx, this]

/-- A list with no member satisfying a predicate has countP zero. -/
theorem countP_eq_zero_of_none (l : List α) (p : α → Bool)
    (h : ∀ b ∈ l, ¬ (p b = true)) : l.countP p = 0 := by
  rw [List.countP_eq_zero]
  exact h

end Helpers

namespace MctsLib

/-- Unfolding of chainFrom at a parentless node. -/
theorem chainFrom_parent_none {t : List Node} {idx : Nat}
    (h : (t.getD idx default).parent = none) : chainFrom t idx = [idx] := by
  rw [chainFrom]
  split
  · rfl
  · rename_i p hp
    rw [h] at hp
    exact absurd hp (by simp)

/-- Unfolding of chainFrom at a node whose parent comes earlier. -/
theorem chainFrom_parent_some {t : List Node} {idx p : Nat}
    (h : (t.getD idx default).parent = some p) (hlt : p < idx) :
    chainFrom t idx = idx :: chainFrom t p := by
  rw [chainFrom]
  split
  · rename_i hn
    rw [h] at hn
    exact absurd hn (by simp)
  · rename_i q hq
    rw [h] at hq
    cases hq
    simp [hlt]

/-- On a well-formed arena, the fuelled chain of backpropagation agrees
with chainFrom whenever the fuel exceeds the start index. -/
theorem chainAux_eq_chainFrom {t : List Node} (wf : WFTree t) :
    ∀ idx fuel, idx < t.length → idx < fuel →
      chainAux t (some idx) fuel = chainFrom t idx := by
  intro idx
  induction idx using Nat.strong_induction_on with
  | _ idx ih =>
      intro fuel hlen hfuel
      match fuel with
      | 0 => omega
      | fuel + 1 =>
          rw [chainAux]
          cases hp : (t.getD idx default).parent with
          | none =>
              rw [chainFrom_parent_none hp]
              simp [chainAux]
          | some p =>
              have hplt : p < idx := wf.parent_lt idx p hlen hp
              rw [chainFrom_parent_some hp hplt]
              congr 1
              exact ih p hplt fuel (lt_trans hplt hlen) (by omega)

/-- Every element of chainFrom is at most the start index. -/
theorem chainFrom_le {t : List Node} :
    ∀ idx, ∀ j ∈ chainFrom t idx, j ≤ idx := by
  intro idx
  induction idx using Nat.strong_induction_on with
  | _ idx ih =>
      intro j hj
      rw [chainFrom] at hj
      rcases List.mem_cons.mp hj with rfl | hj
      · exact le_refl _
      · revert hj
        split
        · simp
        · rename_i p hp
          by_cases hlt : p < idx
          · simp only [hlt, dif_pos]
            intro hj
            exact le_trans (ih p hlt j hj) (le_of_lt hlt)
          · simp [hlt]

/-- chainFrom has no duplicates. -/
theorem chainFrom_nodup {t : List Node} :
    ∀ idx, (chainFrom t idx).Nodup := by
  intro idx
  induction idx using Nat.strong_induction_on with
  | _ idx ih =>
      rw [chainFrom]
      refine List.nodup_cons.mpr ⟨?_, ?_⟩
      · split
        · simp
        · rename_i p hp
          by_cases hlt : p < idx
          · simp only [hlt, dif_pos]
            intro hj
            exact absurd (chainFrom_le p idx hj) (by omega)
          · simp [hlt]
      · split
        · simp
        · rename_i p hp
          by_cases hlt : p < idx
          · simpa [hlt] using ih p hlt
          · simp [hlt]

/-- On a well-formed arena, every chain ends at the root. -/
theorem chainFrom_zero_mem {t : List Node} (wf : WFTree t) :
    ∀ idx, idx < t.length → 0 ∈ chainFrom t idx := by
  intro idx
  induction idx using Nat.strong_induction_on with
  | _ idx ih =>
      intro hlen
      cases hp : (t.getD idx default).parent with
      | none =>
          have : idx = 0 := (wf.parent_root idx hlen).mp hp
          rw [chainFrom_parent_none hp, this]
          simp
      | some p =>
          have hplt : p < idx := wf.parent_lt idx p hlen hp
          rw [chainFrom_parent_some hp hplt]
          exact List.mem_cons_of_mem _ (ih p hplt (lt_trans hplt hlen))

/-- On a well-formed arena, the chain from a nonroot node holds exactly one
node whose parent is the root, and the chain from the root is just the
root. -/
theorem chainFrom_rootChild {t : List Node} (wf : WFTree t) :
    ∀ idx, idx < t.length → idx ≠ 0 →
      ∃ j, j ∈ chainFrom t idx ∧ (t.getD j default).parent = some 0 ∧
        ∀ k ∈ chainFrom t idx, (t.getD k default).parent = some 0 → k = j := by
  intro idx
  induction idx using Nat.strong_induction_on with
  | _ idx ih =>
      intro hlen h0
      cases hp : (t.getD idx default).parent with
      | none => exact absurd ((wf.parent_root idx hlen).mp hp) h0
      | some p =>
          have hplt : p < idx := wf.parent_lt idx p hlen hp
          have hplen : p < t.length := lt_trans hplt hlen
          rw [chainFrom_parent_some hp hplt]
          by_cases hp0 : p = 0
          · subst hp0
            refine ⟨idx, List.mem_cons_self _ _, hp, ?_⟩
            intro k hk hk0
            rcases List.mem_cons.mp hk with rfl | hk
            · rfl
            · have hroot : (t.getD 0 default).parent = none :=
                (wf.parent_root 0 (by omega)).mpr rfl
              rw [chainFrom_parent_none hroot] at hk
              rcases List.mem_singleton.mp hk with rfl
              rw [hroot] at hk0
              exact absurd hk0 (by simp)
          · obtain ⟨j, hjmem, hj0, hjuniq⟩ := ih p hplt hplen hp0
            refine ⟨j, List.mem_cons_of_mem _ hjmem, hj0, ?_⟩
            intro k hk hk0
            rcases List.mem_cons.mp hk with rfl | hk
            · rw [hp] at hk0
              cases hk0
              exact absurd rfl hp0
            · exact hjuniq k hk hk0

/-- The chain from the root of a well-formed arena is the singleton root. -/
theorem chainFrom_zero {t : List Node} (wf : WFTree t) (hlen : 0 < t.length) :
    chainFrom t 0 = [0] :=
  chainFrom_parent_none ((wf.parent_root 0 hlen).mpr rfl)

/-- The fuelled chain reads only parent links. -/
theorem chainAux_congr_parent {t t2 : List Node}
    (h : ∀ j, (t2.getD j default).parent = (t.getD j default).parent) :
    ∀ o fuel, chainAux t2 o fuel = chainAux t o fuel := by
  intro o fuel
  induction fuel generalizing o with
  | zero => cases o <;> simp [chainAux]
  | succ fuel ih =>
      cases o with
      | none => simp [chainAux]
      | some idx =>
          rw [chainAux, chainAux, h idx]
          congr 1
          exact ih _

/-- bumpNode changes only the visit count and the accumulated value. -/
theorem bumpNode_fields (scores : List ℚ) (n : Node) :
    (bumpNode scores n).parent = n.parent ∧
    (bumpNode scores n).children = n.children ∧
    (bumpNode scores n).untried_moves = n.untried_moves ∧
    (bumpNode scores n).game_state = n.game_state ∧
    (bumpNode scores n).visit_count = n.visit_count + 1 :=
  ⟨rfl, rfl, rfl, rfl, rfl⟩

/-- The backpropagation walk keeps the arena length. -/
theorem backpropAux_length (scores : List ℚ) :
    ∀ fuel o t, (backpropAux scores t o fuel).length = t.length := by
  intro fuel
  induction fuel with
  | zero => intro o t; cases o <;> simp [backpropAux]
  | succ fuel ih =>
      intro o t
      cases o with
      | none => simp [backpropAux]
      | some idx =>
          rw [backpropAux]
          rw [ih]
          simp

/-- The backpropagation walk bumps exactly the nodes on the fuelled chain,
provided that chain has no duplicates. -/
theorem backpropAux_getD (scores : List ℚ) :
    ∀ fuel o t, (chainAux t o fuel).Nodup →
      ∀ j, j < t.length →
        (backpropAux scores t o fuel).getD j default =
          if j ∈ chainAux t o fuel then bumpNode scores (t.getD j default)
          else t.getD j default := by
  intro fuel
  induction fuel with
  | zero =>
      intro o t hnd j hj
      cases o <;> simp [backpropAux, chainAux]
  | succ fuel ih =>
      intro o t hnd j hj
      cases o with
      | none => simp [backpropAux, chainAux]
      | some idx =>
          rw [backpropAux, chainAux]
          rw [chainAux] at hnd
          have hpar : ∀ k,
              ((t.set idx (bumpNode scores (t.getD idx default))).getD k default).parent =
                (t.getD k default).parent := by
            intro k
            by_cases hk : idx = k
            · subst hk
              by_cases hklen : idx < t.length
              · rw [getD_set_self _ _ _ _ hklen]
                exact (bumpNode_fields scores _).1
              · rw [List.set_eq_of_length_le (by omega)]
            · rw [getD_set_ne _ _ _ _ _ hk]
          have hch : chainAux (t.set idx (bumpNode scores (t.getD idx default)))
              ((t.getD idx default).parent) fuel =
              chainAux t ((t.getD idx default).parent) fuel := by
            rw [chainAux_congr_parent hpar]
          have hnd2 : (chainAux (t.set idx (bumpNode scores (t.getD idx default)))
              ((t.getD idx default).parent) fuel).Nodup := by
            rw [hch]
            exact (List.nodup_cons.mp hnd).2
          have hlen2 : j < (t.set idx (bumpNode scores (t.getD idx default))).length := by
            simpa using hj
          have := ih ((t.getD idx default).parent)
            (t.set idx (bumpNode scores (t.getD idx default))) hnd2 j hlen2
          rw [this, hch]
          by_cases hji : j = idx
          · subst hji
            have hnotin : ¬ j ∈ chainAux t ((t.getD j default).parent) fuel :=
              (List.nodup_cons.mp hnd).1
            simp only [hnotin, if_false, List.mem_cons, true_or, if_true]
            rw [getD_set_self _ _ _ _ hj]
          · rw [getD_set_ne _ _ _ _ _ (fun he => hji he.symm)]
            by_cases hmem : j ∈ chainAux t ((t.getD idx default).parent) fuel
            · rw [if_pos hmem, if_pos (List.mem_cons_of_mem _ hmem)]
            · rw [if_neg hmem, if_neg (fun hc =>
                (List.mem_cons.mp hc).elim (fun h => hji h) (fun h => hmem h))]

/-- Specification of Mcts backpropagation on a well-formed arena: the nodes
on the ancestor chain of the start node gain one visit and the score of
their acting player; every other node, and the shape of the arena, is
unchanged. -/
theorem backpropagation_spec {t : List Node} (wf : WFTree t) (idx : Nat)
    (scores : List ℚ) (hidx : idx < t.length) :
    (backpropagation t idx scores).length = t.length ∧
    ∀ j, j < t.length →
      (backpropagation t idx scores).getD j default =
        if j ∈ chainFrom t idx then bumpNode scores (t.getD j default)
        else t.getD j default := by
  have hchain : chainAux t (some idx) t.length = chainFrom t idx :=
    chainAux_eq_chainFrom wf idx t.length hidx hidx
  constructor
  · exact backpropAux_length scores _ _ _
  · intro j hj
    rw [backpropagation, backpropAux_getD scores t.length (some idx) t
      (by rw [hchain]; exact chainFrom_nodup idx) j hj, hchain]

/-- A member of the child index list of a node of a well-formed arena is a
valid arena index. -/
theorem childIdx_lt {t : List Node} (wf : WFTree t) {i x : Nat}
    (hi : i < t.length) (hx : x ∈ (t.getD i default).children.map Prod.snd) :
    x < t.length := by
  obtain ⟨pr, hpr, hpr2⟩ := List.mem_map.mp hx
  have hpair : (pr.1, pr.2) ∈ (t.getD i default).children := by
    simpa using hpr
  have := (wf.child_link i pr.1 pr.2 hi hpair).1
  omega

/-- On a well-formed arena, the selection walk never leaves the arena. -/
theorem selTarget_lt {t : List Node} (wf : WFTree t) (sq : Nat → ℚ) :
    ∀ fuel idx, idx < t.length → selTarget sq t idx fuel < t.length := by
  intro fuel
  induction fuel with
  | zero => intro idx h; simpa [selTarget] using h
  | succ fuel ih =>
      intro idx h
      rw [selTarget]
      by_cases hu : ¬ (t.getD idx default).untried_moves.isEmpty
      · rw [if_pos hu]; exact h
      · rw [if_neg hu]
        by_cases hc : (t.getD idx default).children.isEmpty
        · rw [if_pos hc]; exact h
        · rw [if_neg hc]
          have hne : ¬ ((t.getD idx default).children.map Prod.snd).isEmpty := by
            intro hmap
            exact hc (by simpa [List.isEmpty_iff, List.map_eq_nil] using hmap)
          obtain ⟨x, hx⟩ := maxByLast_isSome
            (fun child_idx => puct_score sq t child_idx (t.getD idx default).visit_count)
            ((t.getD idx default).children.map Prod.snd) hne
          have hxlt : x < t.length :=
            childIdx_lt wf h (maxByLast_spec _ _ _ hx).1
          rw [hx]
          exact ih x hxlt

/-- Index characterization of the arena produced by an expansion: the
expanded node is replaced, the new node sits at the old length, everything
else is unchanged. -/
theorem expandTree_getD (t : List Node) (idx : Nat) (node2 newNode : Node)
    (hidx : idx < t.length) (j : Nat) :
    (t.set idx node2 ++ [newNode]).getD j default =
      if j = idx then node2
      else if j = t.length then newNode
      else t.getD j default := by
  by_cases h1 : j = idx
  · subst h1
    rw [if_pos rfl, getD_append_left _ _ _ _ (by simpa using hidx),
      getD_set_self _ _ _ _ hidx]
  · rw [if_neg h1]
    by_cases h2 : j = t.length
    · subst h2
      rw [if_pos rfl, getD_append_right _ _ _ _ (by simp)]
      simp
    · rw [if_neg h2]
      by_cases h3 : j < t.length
      · rw [getD_append_left _ _ _ _ (by simpa using h3),
          getD_set_ne _ _ _ _ _ (fun he => h1 he.symm)]
      · have hgt : t.length < j := by omega
        rw [getD_append_right _ _ _ _ (by simp; omega)]
        rw [List.getD_eq_default, List.getD_eq_default]
        · omega
        · simp
          omega

/-- Expansion preserves well-formedness of the arena. -/
theorem expand_WF {t : List Node} (wf : WFTree t) {idx : Nat}
    (hidx : idx < t.length) (mv : Move) (prior : ℚ) (st : GameState) :
    WFTree (t.set idx
      { t.getD idx default with
          untried_moves := (t.getD idx default).untried_moves.dropLast
          children := (t.getD idx default).children ++ [(mv, t.length)] }
      ++ [Node.new (some idx) prior st]) := by
  have hlenpos : 0 < t.length := by omega
  set node2 : Node :=
    { t.getD idx default with
        untried_moves := (t.getD idx default).untried_moves.dropLast
        children := (t.getD idx default).children ++ [(mv, t.length)] } with hnode2
  set newNode : Node := Node.new (some idx) prior st with hnewNode
  have hlen2 : (t.set idx node2 ++ [newNode]).length = t.length + 1 := by simp
  have hget : ∀ j, (t.set idx node2 ++ [newNode]).getD j default =
      if j = idx then node2
      else if j = t.length then newNode
      else t.getD j default := expandTree_getD t idx node2 newNode hidx
  have hparent2 : ∀ j, j < t.length →
      ((t.set idx node2 ++ [newNode]).getD j default).parent =
        (t.getD j default).parent := by
    intro j hj
    rw [hget j]
    by_cases h1 : j = idx
    · subst h1; rw [if_pos rfl]
    · rw [if_neg h1, if_neg (by omega)]
  have hchild2 : ∀ j, j < t.length → j ≠ idx →
      ((t.set idx node2 ++ [newNode]).getD j default).children =
        (t.getD j default).children := by
    intro j hj h1
    rw [hget j, if_neg h1, if_neg (by omega)]
  have hchildidx : ((t.set idx node2 ++ [newNode]).getD idx default).children =
      (t.getD idx default).children ++ [(mv, t.length)] := by
    rw [hget idx, if_pos rfl]
  have hnew : (t.set idx node2 ++ [newNode]).getD t.length default = newNode := by
    rw [hget t.length, if_neg (by omega), if_pos rfl]
  constructor
  · exact List.ne_nil_of_length_pos (by omega)
  · intro i hi
    rw [hlen2] at hi
    by_cases hil : i < t.length
    · rw [hparent2 i hil]
      exact wf.parent_root i hil
    · have hieq : i = t.length := by omega
      subst hieq
      rw [hnew]
      constructor
      · intro hcon
        rw [hnewNode] at hcon
        simp [Node.new] at hcon
      · intro hcon; omega
  · intro i p hi hp
    rw [hlen2] at hi
    by_cases hil : i < t.length
    · rw [hparent2 i hil] at hp
      exact wf.parent_lt i p hil hp
    · have hieq : i = t.length := by omega
      subst hieq
      rw [hnew, hnewNode] at hp
      have : idx = p := by simpa [Node.new] using hp
      omega
  · intro i mv' c hi hmem
    rw [hlen2] at hi
    by_cases hil : i < t.length
    · by_cases hiidx : i = idx
      · subst hiidx
        rw [hchildidx] at hmem
        rcases List.mem_append.mp hmem with hold | hnewm
        · obtain ⟨hc, hcp⟩ := wf.child_link i mv' c hil hold
          refine ⟨by omega, ?_⟩
          rw [hparent2 c hc]
          exact hcp
        · rcases List.mem_singleton.mp hnewm with heq
          have hc : c = t.length := congrArg Prod.snd heq
          subst hc
          refine ⟨by omega, ?_⟩
          rw [hnew, hnewNode]
          simp [Node.new]
      · rw [hchild2 i hil hiidx] at hmem
        obtain ⟨hc, hcp⟩ := wf.child_link i mv' c hil hmem
        refine ⟨by omega, ?_⟩
        rw [hparent2 c hc]
        exact hcp
    · have hieq : i = t.length := by omega
      subst hieq
      rw [hnew, hnewNode] at hmem
      simp [Node.new] at hmem
  · intro i hi
    rw [hlen2] at hi
    by_cases hil : i < t.length
    · by_cases hiidx : i = idx
      · subst hiidx
        rw [hchildidx, List.map_append]
        refine List.Nodup.append (wf.child_nodup i hil) (by simp) ?_
        intro a ha hb
        have halt : a < t.length := childIdx_lt wf hil ha
        simp at hb
        omega
      · rw [hchild2 i hil hiidx]
        exact wf.child_nodup i hil
    · have hieq : i = t.length := by omega
      subst hieq
      rw [hnew, hnewNode]
      simp [Node.new]
  · intro i j hi hj hp
    rw [hlen2] at hi hj
    by_cases hjl : j < t.length
    · rw [hparent2 j hjl] at hp
      have hilt : i < j := wf.parent_lt j i hjl hp
      have hil : i < t.length := by omega
      have hmem := wf.parent_child i j hil hjl hp
      by_cases hiidx : i = idx
      · subst hiidx
        rw [hchildidx, List.map_append]
        exact List.mem_append.mpr (Or.inl hmem)
      · rw [hchild2 i hil hiidx]
        exact hmem
    · have hjeq : j = t.length := by omega
      subst hjeq
      rw [hnew, hnewNode] at hp
      have hieq : idx = i := by
        have hsome : some idx = some i := by simpa [Node.new] using hp
        exact Option.some.inj hsome
      subst hieq
      rw [hchildidx, List.map_append]
      refine List.mem_append.mpr (Or.inr ?_)
      simp

/-- Specification of Mcts select-and-expand on a well-formed arena: the
resulting arena is well-formed and at most one node larger, previously
existing nodes keep their visit counts, any new node is unvisited and is
the returned start index, the start index is valid, and the children of
the root are unchanged unless the expansion happened at the root, in which
case exactly the new node is appended. -/
theorem select_and_expand_spec (sq : Nat → ℚ) (m : Mcts) (wf : WFTree m.tree) :
    WFTree (m.midTree sq) ∧
    m.tree.length ≤ (m.midTree sq).length ∧
    m.startIdx sq < (m.midTree sq).length ∧
    (∀ i, i < m.tree.length →
      ((m.midTree sq).getD i default).visit_count =
        (m.tree.getD i default).visit_count) ∧
    (∀ i, m.tree.length ≤ i → i < (m.midTree sq).length →
      ((m.midTree sq).getD i default).visit_count = 0 ∧ i = m.startIdx sq) ∧
    (((m.midTree sq).getD 0 default).children = (m.tree.getD 0 default).children ∨
      ∃ mv, ((m.midTree sq).getD 0 default).children =
        (m.tree.getD 0 default).children ++ [(mv, m.tree.length)]) := by
  have hlenpos : 0 < m.tree.length := List.length_pos.mpr wf.nonempty
  have hidxlt : selTarget sq m.tree 0 m.tree.length < m.tree.length :=
    selTarget_lt wf sq m.tree.length 0 hlenpos
  cases hlast :
      (m.tree.getD (selTarget sq m.tree 0 m.tree.length) default).untried_moves.getLast? with
  | none =>
      have hse : m.select_and_expand sq = (m, selTarget sq m.tree 0 m.tree.length) := by
        simp only [Mcts.select_and_expand]
        rw [hlast]
      have hmid : m.midTree sq = m.tree := by rw [Mcts.midTree, hse]
      have hstart : m.startIdx sq = selTarget sq m.tree 0 m.tree.length := by
        rw [Mcts.startIdx, hse]
      refine ⟨by rw [hmid]; exact wf, by rw [hmid], by rw [hmid, hstart]; exact hidxlt,
        by intro i hi; rw [hmid], ?_, Or.inl (by rw [hmid])⟩
      intro i h1 h2
      rw [hmid] at h2
      omega
  | some next_move =>
      set idx := selTarget sq m.tree 0 m.tree.length with hidxdef
      set node2 : Node :=
        { m.tree.getD idx default with
            untried_moves := (m.tree.getD idx default).untried_moves.dropLast
            children := (m.tree.getD idx default).children ++ [(next_move, m.tree.length)] }
        with hnode2
      set newNode : Node := Node.new (some idx)
        (1 / ((m.tree.getD idx default).children.length + 1))
        ((m.tree.getD idx default).game_state.apply_move next_move) with hnewNode
      have hse : m.select_and_expand sq =
          ({ tree := m.tree.set idx node2 ++ [newNode]
             policy_handler := m.policy_handler }, m.tree.length) := by
        simp only [Mcts.select_and_expand]
        rw [hlast]
      have hmid : m.midTree sq = m.tree.set idx node2 ++ [newNode] := by
        rw [Mcts.midTree, hse]
      have hstart : m.startIdx sq = m.tree.length := by rw [Mcts.startIdx, hse]
      have hget := expandTree_getD m.tree idx node2 newNode hidxlt
      have hlen2 : (m.tree.set idx node2 ++ [newNode]).length = m.tree.length + 1 := by
        simp
      refine ⟨?_, ?_, ?_, ?_, ?_, ?_⟩
      · rw [hmid, hnode2, hnewNode]
        exact expand_WF wf hidxlt next_move _ _
      · rw [hmid, hlen2]; omega
      · rw [hmid, hlen2, hstart]; omega
      · intro i hi
        rw [hmid, hget i]
        by_cases h1 : i = idx
        · subst h1
          rw [if_pos rfl, hnode2]
        · rw [if_neg h1, if_neg (by omega)]
      · intro i h1 h2
        rw [hmid, hlen2] at h2
        have hieq : i = m.tree.length := by omega
        subst hieq
        rw [hmid, hget _, if_neg (by omega), if_pos rfl]
        refine ⟨?_, hstart.symm⟩
        rw [hnewNode]
        rfl
      · by_cases h0 : idx = 0
        · refine Or.inr ⟨next_move, ?_⟩
          rw [hmid, hget 0, if_pos h0.symm, hnode2, h0]
        · refine Or.inl ?_
          rw [hmid, hget 0, if_neg (fun he => h0 he.symm), if_neg (by omega)]

/-- The start node heads its own chain. -/
theorem chainFrom_self_mem (t : List Node) (idx : Nat) : idx ∈ chainFrom t idx := by
  rw [chainFrom]
  exact List.mem_cons_self _ _

/-- Well-formedness transports along arenas of identical shape. -/
theorem WFTree_of_shape {t t2 : List Node} (wf : WFTree t)
    (hlen : t2.length = t.length)
    (hpar : ∀ j, j < t.length →
      (t2.getD j default).parent = (t.getD j default).parent)
    (hch : ∀ j, j < t.length →
      (t2.getD j default).children = (t.getD j default).children) :
    WFTree t2 := by
  constructor
  · have : 0 < t.length := List.length_pos.mpr wf.nonempty
    exact List.ne_nil_of_length_pos (by omega)
  · intro i hi
    rw [hlen] at hi
    rw [hpar i hi]
    exact wf.parent_root i hi
  · intro i p hi hp
    rw [hlen] at hi
    rw [hpar i hi] at hp
    exact wf.parent_lt i p hi hp
  · intro i mv c hi hmem
    rw [hlen] at hi
    rw [hch i hi] at hmem
    obtain ⟨hc, hcp⟩ := wf.child_link i mv c hi hmem
    exact ⟨by omega, by rw [hpar c hc]; exact hcp⟩
  · intro i hi
    rw [hlen] at hi
    rw [hch i hi]
    exact wf.child_nodup i hi
  · intro i j hi hj hp
    rw [hlen] at hi hj
    rw [hpar j hj] at hp
    rw [hch i hi]
    exact wf.parent_child i j hi hj hp

/-- Specification of one search iteration on a well-formed arena: the arena
stays well-formed and can only grow; exactly the nodes on the iteration
path gain one visit, with any freshly created node being the start of that
path; the path stays inside the arena and contains the root; and the sum of
the visit counts over the children of the root grows by one unless the
iteration terminated at the root itself. -/
theorem step_spec (sq : Nat → ℚ) (m : Mcts) (wf : WFTree m.tree) :
    WFTree (m.step sq).tree ∧
    m.tree.length ≤ (m.step sq).tree.length ∧
    (∀ j ∈ m.pathOf sq, j < (m.step sq).tree.length) ∧
    0 ∈ m.pathOf sq ∧
    (∀ i, i < m.tree.length →
      ((m.step sq).tree.getD i default).visit_count =
        (m.tree.getD i default).visit_count +
          (if i ∈ m.pathOf sq then 1 else 0)) ∧
    (∀ i, m.tree.length ≤ i → i < (m.step sq).tree.length →
      ((m.step sq).tree.getD i default).visit_count =
        (if i ∈ m.pathOf sq then 1 else 0)) ∧
    ((((m.step sq).tree.getD 0 default).children.map
        fun pr => ((m.step sq).tree.getD pr.2 default).visit_count).sum =
      (((m.tree.getD 0 default).children.map
        fun pr => (m.tree.getD pr.2 default).visit_count).sum +
        (if m.startIdx sq = 0 then 0 else 1))) := by
  obtain ⟨wfmid, hmlen, hstartlt, hvold, hvnew, hchl⟩ := select_and_expand_spec sq m wf
  have hlenpos : 0 < m.tree.length := List.length_pos.mpr wf.nonempty
  have hmidpos : 0 < (m.midTree sq).length := by omega
  have hstep : (m.step sq).tree =
      backpropagation (m.midTree sq) (m.startIdx sq)
        (m.policy_handler.simulate
          (((m.midTree sq).getD (m.startIdx sq) default).game_state)) := rfl
  set scores := m.policy_handler.simulate
    (((m.midTree sq).getD (m.startIdx sq) default).game_state) with hscores
  obtain ⟨hblen, hbget⟩ := backpropagation_spec wfmid (m.startIdx sq) scores hstartlt
  have hpath : m.pathOf sq = chainFrom (m.midTree sq) (m.startIdx sq) := by
    rw [Mcts.pathOf, chain]
    exact chainAux_eq_chainFrom wfmid _ _ hstartlt hstartlt
  have hsteplen : (m.step sq).tree.length = (m.midTree sq).length := by
    rw [hstep]; exact hblen
  have hstepget : ∀ j, j < (m.midTree sq).length →
      (m.step sq).tree.getD j default =
        if j ∈ m.pathOf sq then bumpNode scores ((m.midTree sq).getD j default)
        else (m.midTree sq).getD j default := by
    intro j hj
    rw [hstep, hbget j hj, hpath]
  have hstepvisit : ∀ j, j < (m.midTree sq).length →
      ((m.step sq).tree.getD j default).visit_count =
        ((m.midTree sq).getD j default).visit_count +
          (if j ∈ m.pathOf sq then 1 else 0) := by
    intro j hj
    rw [hstepget j hj]
    by_cases hmem : j ∈ m.pathOf sq
    · rw [if_pos hmem, if_pos hmem]
      exact (bumpNode_fields scores _).2.2.2.2
    · rw [if_neg hmem, if_neg hmem]
      rfl
  have hstepch : ∀ j, j < (m.midTree sq).length →
      ((m.step sq).tree.getD j default).children =
        ((m.midTree sq).getD j default).children := by
    intro j hj
    rw [hstepget j hj]
    by_cases hmem : j ∈ m.pathOf sq
    · rw [if_pos hmem]
      exact (bumpNode_fields scores _).2.1
    · rw [if_neg hmem]
  have hsteppar : ∀ j, j < (m.midTree sq).length →
      ((m.step sq).tree.getD j default).parent =
        ((m.midTree sq).getD j default).parent := by
    intro j hj
    rw [hstepget j hj]
    by_cases hmem : j ∈ m.pathOf sq
    · rw [if_pos hmem]
      exact (bumpNode_fields scores _).1
    · rw [if_neg hmem]
  have hpathlt : ∀ j ∈ m.pathOf sq, j < (m.midTree sq).length := by
    intro j hj
    rw [hpath] at hj
    have := chainFrom_le (m.startIdx sq) j hj
    omega
  refine ⟨?_, ?_, ?_, ?_, ?_, ?_, ?_⟩
  · exact WFTree_of_shape wfmid (by omega) hsteppar hstepch
  · omega
  · intro j hj
    have := hpathlt j hj
    omega
  · rw [hpath]
    exact chainFrom_zero_mem wfmid _ hstartlt
  · intro i hi
    rw [hstepvisit i (by omega), hvold i hi]
  · intro i h1 h2
    rw [hsteplen] at h2
    obtain ⟨hv0, hieq⟩ := hvnew i h1 h2
    rw [hstepvisit i h2, hv0]
    have : i ∈ m.pathOf sq := by
      rw [hpath, hieq]
      exact chainFrom_self_mem _ _
    rw [if_pos this]
  · have hch0 : ((m.step sq).tree.getD 0 default).children =
        ((m.midTree sq).getD 0 default).children := hstepch 0 hmidpos
    have hcl : ∀ pr ∈ ((m.midTree sq).getD 0 default).children,
        pr.2 < (m.midTree sq).length := by
      intro pr hpr
      exact (wfmid.child_link 0 pr.1 pr.2 hmidpos (by simpa using hpr)).1
    have hsum1 : (((m.step sq).tree.getD 0 default).children.map
        fun pr => ((m.step sq).tree.getD pr.2 default).visit_count).sum =
        (((m.midTree sq).getD 0 default).children.map
          fun pr => ((m.midTree sq).getD pr.2 default).visit_count).sum +
        (((m.midTree sq).getD 0 default).children.map
          fun pr => if pr.2 ∈ m.pathOf sq then 1 else 0).sum := by
      rw [hch0, ← sum_map_add]
      refine congrArg List.sum (List.map_congr_left ?_)
      intro pr hpr
      exact hstepvisit pr.2 (hcl pr hpr)
    have hcount : (((m.midTree sq).getD 0 default).children.map
        fun pr => if pr.2 ∈ m.pathOf sq then (1 : Nat) else 0).sum =
        (if m.startIdx sq = 0 then 0 else 1) := by
      rw [sum_map_indicator]
      by_cases hs0 : m.startIdx sq = 0
      · rw [if_pos hs0]
        refine countP_eq_zero_of_none _ _ ?_
        intro pr hpr hin
        rw [decide_eq_true_iff, hpath, hs0, chainFrom_zero wfmid hmidpos] at hin
        have hpr2 : pr.2 = 0 := by simpa using hin
        have hparpr := (wfmid.child_link 0 pr.1 pr.2 hmidpos (by simpa using hpr)).2
        rw [hpr2] at hparpr
        have : ((m.midTree sq).getD 0 default).parent = none :=
          (wfmid.parent_root 0 hmidpos).mpr rfl
        rw [this] at hparpr
        exact absurd hparpr (by simp)
      · rw [if_neg hs0]
        obtain ⟨jstar, hjmem, hjpar, hjuniq⟩ :=
          chainFrom_rootChild wfmid (m.startIdx sq) hstartlt hs0
        have hjlt : jstar < (m.midTree sq).length := by
          have := chainFrom_le (m.startIdx sq) jstar hjmem
          omega
        have hjchild : jstar ∈ ((m.midTree sq).getD 0 default).children.map Prod.snd :=
          wfmid.parent_child 0 jstar hmidpos hjlt hjpar
        obtain ⟨prstar, hprstar, hprstar2⟩ := List.mem_map.mp hjchild
        have hcntmap : (((m.midTree sq).getD 0 default).children.map Prod.snd).countP
            (fun c => decide (c ∈ m.pathOf sq)) = 1 := by
          refine countP_eq_one_of_unique _ _ jstar (wfmid.child_nodup 0 hmidpos)
            hjchild (by rw [decide_eq_true_iff, hpath]; exact hjmem) ?_
          intro b hb hbp
          rw [decide_eq_true_iff, hpath] at hbp
          obtain ⟨prb, hprb, hprb2⟩ := List.mem_map.mp hb
          have hparb := (wfmid.child_link 0 prb.1 prb.2 hmidpos (by simpa using hprb)).2
          rw [hprb2] at hparb
          exact hjuniq b hbp hparb
        rw [← hcntmap, List.countP_map]
        rfl
    have hsum2 : (((m.midTree sq).getD 0 default).children.map
        fun pr => ((m.midTree sq).getD pr.2 default).visit_count).sum =
        (((m.tree.getD 0 default).children.map
          fun pr => (m.tree.getD pr.2 default).visit_count).sum) := by
      rcases hchl with hsame | ⟨mv, happ⟩
      · rw [hsame]
        refine congrArg List.sum (List.map_congr_left ?_)
        intro pr hpr
        have hprlt : pr.2 < m.tree.length :=
          (wf.child_link 0 pr.1 pr.2 hlenpos (by simpa using hpr)).1
        exact hvold pr.2 hprlt
      · rw [happ, List.map_append]
        have hnewlt : m.tree.length < (m.midTree sq).length := by
          have := hcl (mv, m.tree.length) (by rw [happ]; simp)
          simpa using this
        have hv0 : ((m.midTree sq).getD m.tree.length default).visit_count = 0 :=
          (hvnew m.tree.length (le_refl _) hnewlt).1
        simp only [List.sum_append, List.map_cons, List.map_nil, List.sum_cons,
          List.sum_nil, hv0]
        have : (((m.tree.getD 0 default).children.map
            fun pr => ((m.midTree sq).getD pr.2 default).visit_count).sum) =
            (((m.tree.getD 0 default).children.map
              fun pr => (m.tree.getD pr.2 default).visit_count).sum) := by
          refine congrArg List.sum (List.map_congr_left ?_)
          intro pr hpr
          have hprlt : pr.2 < m.tree.length :=
            (wf.child_link 0 pr.1 pr.2 hlenpos (by simpa using hpr)).1
          exact hvold pr.2 hprlt
        omega
    rw [hsum1, hcount, hsum2]

/-- A freshly created engine has a well-formed arena. -/
theorem new_WF (s : GameState) (p : MctsPolicy) : WFTree (Mcts.new s p).tree := by
  constructor
  · simp [Mcts.new]
  · intro i hi
    simp [Mcts.new] at hi
    subst hi
    simp [Mcts.new, Node.new]
  · intro i q hi hq
    simp [Mcts.new] at hi
    subst hi
    simp [Mcts.new, Node.new] at hq
  · intro i mv c hi hmem
    simp [Mcts.new] at hi
    subst hi
    simp [Mcts.new, Node.new] at hmem
  · intro i hi
    simp [Mcts.new] at hi
    subst hi
    simp [Mcts.new, Node.new]
  · intro i j hi hj hp
    simp [Mcts.new] at hi hj
    subst hi; subst hj
    simp [Mcts.new, Node.new] at hp

/-- Every arena reachable by iterating the search loop from a fresh engine
is well-formed. -/
theorem run_WF (sq : Nat → ℚ) (s : GameState) (p : MctsPolicy) :
    ∀ k, WFTree ((Mcts.new s p).run_search sq k).tree := by
  intro k
  induction k with
  | zero => exact new_WF s p
  | succ k ih =>
      rw [Mcts.run_search, Function.iterate_succ_apply']
      exact (step_spec sq _ ih).1

/-- The arena length never decreases along search iterations. -/
theorem run_len_mono (sq : Nat → ℚ) (s : GameState) (p : MctsPolicy) :
    ∀ k n, k ≤ n →
      ((Mcts.new s p).run_search sq k).tree.length ≤
        ((Mcts.new s p).run_search sq n).tree.length := by
  intro k n
  induction n with
  | zero =>
      intro h
      have hk0 : k = 0 := by omega
      subst hk0
      exact le_refl _
  | succ n ih =>
      intro h
      by_cases hk : k = n + 1
      · subst hk; exact le_refl _
      · have h2 : k ≤ n := by omega
        refine le_trans (ih h2) ?_
        simp only [Mcts.run_search]
        rw [Function.iterate_succ_apply']
        exact (step_spec sq _ (run_WF sq s p n)).2.1

/-- C7 auxiliary: the combined visit-count invariant, proved by induction
over the iteration count. -/
theorem run_search_counts (sq : Nat → ℚ) (s : GameState) (p : MctsPolicy) :
    ∀ N,
      ((((Mcts.new s p).run_search sq N).tree.getD 0 default).visit_count = N) ∧
      (∀ i, i < ((Mcts.new s p).run_search sq N).tree.length →
        ((((Mcts.new s p).run_search sq N).tree.getD i default).visit_count =
          (List.range N).countP
            (fun k => decide (i ∈ ((Mcts.new s p).run_search sq k).pathOf sq)))) ∧
      (((((Mcts.new s p).run_search sq N).tree.getD 0 default).children.map
          fun pr => (((Mcts.new s p).run_search sq N).tree.getD pr.2 default).visit_count).sum
        + (List.range N).countP
            (fun k => decide (((Mcts.new s p).run_search sq k).startIdx sq = 0)) = N) := by
  intro N
  induction N with
  | zero =>
      refine ⟨rfl, ?_, rfl⟩
      intro i hi
      have hlen : ((Mcts.new s p).run_search sq 0).tree.length = 1 := rfl
      rw [hlen] at hi
      have hi0 : i = 0 := by omega
      subst hi0
      rfl
  | succ N ihN =>
      have hrw : (Mcts.new s p).run_search sq (N + 1) =
          ((Mcts.new s p).run_search sq N).step sq := by
        simp only [Mcts.run_search]
        rw [Function.iterate_succ_apply']
      have wfN := run_WF sq s p N
      obtain ⟨hwf2, hlen2, hpathlt, hzeromem, hvold, hvnew, hsum⟩ :=
        step_spec sq ((Mcts.new s p).run_search sq N) wfN
      have hlenpos : 0 < ((Mcts.new s p).run_search sq N).tree.length :=
        List.length_pos.mpr wfN.nonempty
      refine ⟨?_, ?_, ?_⟩
      · rw [hrw, hvold 0 hlenpos, ihN.1, if_pos hzeromem]
      · intro i hi
        rw [hrw] at hi ⊢
        rw [List.range_succ, List.countP_append]
        have hsingle : (List.countP
            (fun k => decide (i ∈ ((Mcts.new s p).run_search sq k).pathOf sq)) [N]) =
            (if i ∈ ((Mcts.new s p).run_search sq N).pathOf sq then 1 else 0) := by
          rw [List.countP_cons, List.countP_nil]
          by_cases hmem : i ∈ ((Mcts.new s p).run_search sq N).pathOf sq
          · simp [hmem]
          · simp [hmem]
        rw [hsingle]
        by_cases hi2 : i < ((Mcts.new s p).run_search sq N).tree.length
        · rw [hvold i hi2, ihN.2.1 i hi2]
        · have hge : ((Mcts.new s p).run_search sq N).tree.length ≤ i := by omega
          rw [hvnew i hge hi]
          have hrest : (List.range N).countP
              (fun k => decide (i ∈ ((Mcts.new s p).run_search sq k).pathOf sq)) = 0 := by
            refine countP_eq_zero_of_none _ _ ?_
            intro k hk hd
            have hkmem : i ∈ ((Mcts.new s p).run_search sq k).pathOf sq :=
              of_decide_eq_true hd
            have hkN : k < N := List.mem_range.mp hk
            have hrwk : (Mcts.new s p).run_search sq (k + 1) =
                ((Mcts.new s p).run_search sq k).step sq := by
              simp only [Mcts.run_search]
              rw [Function.iterate_succ_apply']
            have hltk : i < ((Mcts.new s p).run_search sq (k + 1)).tree.length := by
              rw [hrwk]
              exact (step_spec sq _ (run_WF sq s p k)).2.2.1 i hkmem
            have hmono := run_len_mono sq s p (k + 1) N (by omega)
            omega
          rw [hrest]
          omega
      · rw [hrw]
        rw [List.range_succ, List.countP_append]
        have hsingle : (List.countP
            (fun k => decide (((Mcts.new s p).run_search sq k).startIdx sq = 0)) [N]) =
            (if ((Mcts.new s p).run_search sq N).startIdx sq = 0 then 1 else 0) := by
          rw [List.countP_cons, List.countP_nil]
          by_cases hs : ((Mcts.new s p).run_search sq N).startIdx sq = 0
          · simp [hs]
          · simp [hs]
        have hfin := ihN.2.2
        by_cases hs : ((Mcts.new s p).run_search sq N).startIdx sq = 0
        · rw [hsingle, if_pos hs, hsum, if_pos hs]
          omega
        · rw [hsingle, if_neg hs, hsum, if_neg hs]
          omega

end MctsLib

namespace NnAi

/-- Lookup in a constant-valued map over a list containing the key. -/
theorem alistGet_map_const (legal : List Move) (c : ℚ) (m : Move)
    (hm : m ∈ legal) :
    alistGet m (legal.map fun m2 => (m2, c)) = some c := by
  induction legal with
  | nil => simp at hm
  | cons a t ih =>
      rcases List.mem_cons.mp hm with rfl | hm
      · simp [alistGet, List.find?]
      · by_cases ha : a = m
        · subst ha
          simp [alistGet, List.find?]
        · simp only [List.map_cons, alistGet, List.find?]
          rw [decide_eq_false (by simpa using ha)]
          exact ih hm

/-- Lookup in the normalized policy list built by the positive-total branch
of mask_and_normalize_policy. -/
theorem alistGet_normalized (masked : List ((MoveSource × Tile) × ℚ)) (T : ℚ)
    (m : Move) (q : ℚ) :
    ∀ legal : List Move, m ∈ legal →
      alistGet (m.source, m.tile) masked = some q →
      alistGet m (legal.filterMap fun m2 =>
        (alistGet (m2.source, m2.tile) masked).map fun prob => (m2, prob / T)) =
        some (q / T) := by
  intro legal
  induction legal with
  | nil => intro hm; simp at hm
  | cons a t ih =>
      intro hm hq
      rcases List.mem_cons.mp hm with rfl | hm
      · rw [List.filterMap_cons, hq]
        simp [alistGet, List.find?]
      · rw [List.filterMap_cons]
        cases hfa : alistGet (a.source, a.tile) masked with
        | none => exact ih hm hq
        | some pa =>
            by_cases ha : a = m
            · subst ha
              rw [hfa] at hq
              cases hq
              simp [alistGet, List.find?]
            · simp only [Option.map_some, alistGet, List.find?]
              rw [decide_eq_false (by simpa using ha)]
              exact ih hm hq

/-- Division distributes over list sums of rationals. -/
theorem sum_map_div {α : Type} (l : List α) (f : α → ℚ) (t : ℚ) :
    (l.map fun x => f x / t).sum = (l.map f).sum / t := by
  induction l with
  | nil => simp
  | cons a r ih =>
      simp only [List.map_cons, List.sum_cons, ih]
      rw [add_div]

end NnAi

/-- The legal moves of the single-blue-tile state, computed. -/
theorem sBlue_legal_moves : sBlue.get_legal_moves =
    [ { source := .factory 0, tile := .blue, destination := .patternLine 0 }
    , { source := .factory 0, tile := .blue, destination := .patternLine 1 }
    , { source := .factory 0, tile := .blue, destination := .patternLine 2 }
    , { source := .factory 0, tile := .blue, destination := .patternLine 3 }
    , { source := .factory 0, tile := .blue, destination := .patternLine 4 }
    , { source := .factory 0, tile := .blue, destination := .floor } ] := by
  decide

/-- The unique (source, color) pairs of the single-blue-tile state. -/
theorem sBlue_uniqueTakes :
    NnAi.uniqueTakes sBlue.get_legal_moves = [(MoveSource.factory 0, Tile.blue)] := by
  decide

/-- The masked policy of the single-blue-tile state against rawHalf. -/
theorem sBlue_maskedPolicy :
    NnAi.maskedPolicy sBlue.get_legal_moves rawHalf =
      [((MoveSource.factory 0, Tile.blue), 1 / 2)] := by
  rw [NnAi.maskedPolicy, sBlue_uniqueTakes]
  simp only [List.filterMap_cons, List.filterMap_nil, NnAi.move_to_policy_index,
    NnAi.color_to_index, rawHalf, Option.bind_some]
  norm_num

/-- The masked total of the single-blue-tile state against rawHalf. -/
theorem sBlue_totalProb :
    NnAi.totalProb sBlue.get_legal_moves rawHalf = 1 / 2 := by
  rw [NnAi.totalProb, sBlue_maskedPolicy]
  simp

/-- C4, corrected: as stated the claim is false, because the map holds one
entry per legal move while normalization divides by a total taken over
distinct (source, color) pairs only. At a state whose single blue tile in
factory 0 allows six legal moves sharing one (source, color) pair, and a
raw policy putting mass one half on that pair, every one of the six map
entries gets probability one, so the per-move sum is six, not one. -/
theorem C4_per_move_sum_counterexample :
    sBlue.get_legal_moves ≠ [] ∧
    NnAi.policySum (NnAi.mask_and_normalize_policy sBlue.get_legal_moves rawHalf) = 6 ∧
    ¬ NnAi.policySum (NnAi.mask_and_normalize_policy sBlue.get_legal_moves rawHalf) = 1 := by
  have hsum : NnAi.policySum
      (NnAi.mask_and_normalize_policy sBlue.get_legal_moves rawHalf) = 6 := by
    simp only [NnAi.mask_and_normalize_policy]
    rw [sBlue_totalProb, sBlue_maskedPolicy, sBlue_legal_moves]
    norm_num [NnAi.policySum, NnAi.alistGet, List.find?]
    simp
    norm_num
  refine ⟨by decide, hsum, by rw [hsum]; norm_num⟩

/-- C4, amended: with a positive masked total, the normalized weights sum
to one when summed once per masked (source, color) entry, and every legal
move whose (source, color) slot carries masked weight q is mapped to
q divided by the masked total; the per-move values of the returned map thus
sum to one only when distinct legal moves never share a (source, color)
pair. -/
theorem C4_pair_sum_normalizes (legal : List Move) (raw : List ℚ)
    (hT : 0 < NnAi.totalProb legal raw) :
    (((NnAi.maskedPolicy legal raw).map
        fun kv => kv.2 / NnAi.totalProb legal raw).sum = 1) ∧
    (∀ m ∈ legal, ∀ q,
      NnAi.alistGet (m.source, m.tile) (NnAi.maskedPolicy legal raw) = some q →
      NnAi.alistGet m (NnAi.mask_and_normalize_policy legal raw) =
        some (q / NnAi.totalProb legal raw)) := by
  constructor
  · rw [NnAi.sum_map_div]
    have : ((NnAi.maskedPolicy legal raw).map fun kv => kv.2).sum =
        NnAi.totalProb legal raw := rfl
    rw [this]
    exact div_self (ne_of_gt hT)
  · intro m hm q hq
    have hlook := NnAi.alistGet_normalized (NnAi.maskedPolicy legal raw)
      (NnAi.totalProb legal raw) m q legal hm hq
    have hfinal : NnAi.alistGet m (legal.filterMap fun m2 =>
        (NnAi.alistGet (m2.source, m2.tile) (NnAi.maskedPolicy legal raw)).map
          fun prob => (m2, prob / NnAi.totalProb legal raw)) ≠ none := by
      rw [hlook]; simp
    have hne : ¬ (legal.filterMap fun m2 =>
        (NnAi.alistGet (m2.source, m2.tile) (NnAi.maskedPolicy legal raw)).map
          fun prob => (m2, prob / NnAi.totalProb legal raw)) = [] := by
      intro hnil
      rw [hnil] at hfinal
      exact hfinal rfl
    simp only [NnAi.mask_and_normalize_policy, if_pos hT]
    rw [if_neg (by
      intro hcon
      exact hne (by simpa [List.isEmpty_iff] using hcon.1))]
    exact hlook

/-- C4 witness: at the single-blue-tile state with mass one half on its
slot, the masked total is positive and the per-pair normalized sum is one. -/
theorem C4_pair_sum_normalizes_witness :
    0 < NnAi.totalProb sBlue.get_legal_moves rawHalf ∧
    ((NnAi.maskedPolicy sBlue.get_legal_moves rawHalf).map
      fun kv => kv.2 / NnAi.totalProb sBlue.get_legal_moves rawHalf).sum = 1 :=
  ⟨by rw [sBlue_totalProb]; norm_num,
    (C4_pair_sum_normalizes sBlue.get_legal_moves rawHalf
      (by rw [sBlue_totalProb]; norm_num)).1⟩

/-- C5, confirmed: when the masked total over the clipped raw outputs is
zero and legal moves exist, mask_and_normalize_policy assigns every legal
move the uniform probability one over the number of legal moves; no
division by the zero total is performed, since the normalization branch is
guarded by the positivity test. -/
theorem C5_zero_total_uniform_fallback (s : GameState) (raw : List ℚ)
    (h1 : ¬ s.get_legal_moves = [])
    (h2 : NnAi.totalProb s.get_legal_moves raw = 0) :
    ∀ m ∈ s.get_legal_moves,
      NnAi.alistGet m (NnAi.mask_and_normalize_policy s.get_legal_moves raw) =
        some ((1 : ℚ) / s.get_legal_moves.length) := by
  intro m hm
  have hnotpos : ¬ (0 < NnAi.totalProb s.get_legal_moves raw) := by
    rw [h2]; exact lt_irrefl 0
  simp only [NnAi.mask_and_normalize_policy, if_neg hnotpos]
  rw [if_pos ⟨rfl, by simpa [List.isEmpty_iff] using h1⟩]
  exact NnAi.alistGet_map_const _ _ m hm

/-- The masked total of the single-blue-tile state against the all-zero
raw policy vanishes. -/
theorem sBlue_totalProb_zero :
    NnAi.totalProb sBlue.get_legal_moves rawZero = 0 := by
  rw [NnAi.totalProb, NnAi.maskedPolicy, sBlue_uniqueTakes]
  simp only [List.filterMap_cons, List.filterMap_nil, NnAi.move_to_policy_index,
    NnAi.color_to_index, rawZero, Option.bind_some]
  norm_num [NnAi.POLICY_SIZE, NnAi.NUM_FACTORIES, NnAi.NUM_COLORS]

/-- C5 witness: at the single-blue-tile state with an all-zero raw policy,
the floor move is mapped to one sixth. -/
theorem C5_zero_total_uniform_fallback_witness :
    ¬ sBlue.get_legal_moves = [] ∧
    NnAi.totalProb sBlue.get_legal_moves rawZero = 0 ∧
    NnAi.alistGet mvBlueFloor (NnAi.mask_and_normalize_policy sBlue.get_legal_moves rawZero) =
      some ((1 : ℚ) / sBlue.get_legal_moves.length) :=
  ⟨by decide, sBlue_totalProb_zero,
    C5_zero_total_uniform_fallback sBlue rawZero (by decide) sBlue_totalProb_zero
      mvBlueFloor (by decide)⟩

/-- Moves generated for a nonempty tile source form a nonempty list. -/
theorem generateMovesForSource_ne_nil (board : PlayerBoard) (src : MoveSource)
    (tiles : List Tile) (h : tiles ≠ []) :
    generateMovesForSource board src tiles ≠ [] := by
  have hd : tiles.dedup ≠ [] := by
    intro hcon
    exact h ((List.dedup_eq_nil _).mp hcon)
  obtain ⟨t0, ht0⟩ := List.exists_mem_of_ne_nil _ hd
  intro hcon
  have : ({ source := src, tile := t0, destination := .floor } : Move) ∈
      generateMovesForSource board src tiles := by
    rw [generateMovesForSource]
    refine List.mem_flatMap.mpr ⟨t0, ht0, ?_⟩
    exact List.mem_append.mpr (Or.inr (by simp))
  rw [hcon] at this
  simp at this

/-- C9, confirmed: get_legal_moves is a function of the state alone, and it
returns the empty list exactly when every factory is empty and the center
is empty, which is exactly when is_round_over holds. The hypothesis keeps
the acting player index inside the player list, as the source indexes the
player vector unconditionally. -/
theorem C9_no_moves_iff_round_over (s : GameState)
    (h : s.current_player_idx < s.players.length) :
    (s.get_legal_moves = [] ↔ s.is_round_over = true) ∧
    (s.is_round_over = true ↔ ((∀ f ∈ s.factories, f = []) ∧ s.center = [])) := by
  have hro : s.is_round_over = true ↔ ((∀ f ∈ s.factories, f = []) ∧ s.center = []) := by
    rw [GameState.is_round_over]
    simp [List.all_eq_true, List.isEmpty_iff]
  refine ⟨?_, hro⟩
  rw [hro]
  rw [GameState.get_legal_moves]
  constructor
  · intro hnil
    have hsplit := List.append_eq_nil.mp hnil
    constructor
    · intro f hf
      by_contra hfne
      obtain ⟨i, hi⟩ := List.mem_iff_get.mp hf
      have hmemenum : (i.1, f) ∈ s.factories.enum := by
        rw [List.mem_enum_iff_getElem?]
        rw [List.getElem?_eq_getElem i.2]
        rw [List.get_eq_getElem] at hi
        exact congrArg some hi
      have hflat := List.flatMap_eq_nil_iff.mp hsplit.1 (i.1, f) hmemenum
      rw [if_neg (by simpa [List.isEmpty_iff] using hfne)] at hflat
      exact generateMovesForSource_ne_nil _ _ f hfne hflat
    · by_contra hcne
      have := hsplit.2
      rw [if_neg (by simpa [List.isEmpty_iff] using hcne)] at this
      exact generateMovesForSource_ne_nil _ _ s.center hcne this
  · intro ⟨hfac, hcen⟩
    rw [List.append_eq_nil]
    constructor
    · rw [List.flatMap_eq_nil_iff]
      intro p hp
      have hpf : p.2 ∈ s.factories := List.snd_mem_of_mem_enum hp
      rw [if_pos (by simpa [List.isEmpty_iff] using hfac p.2 hpf)]
    · rw [if_pos (by simpa [List.isEmpty_iff] using hcen)]

/-- C9 witness: at the all-empty two-player state the round is over and
consequently there is no legal move. -/
theorem C9_no_moves_iff_round_over_witness : sEmpty.get_legal_moves = [] :=
  (C9_no_moves_iff_round_over sEmpty (by decide)).1.mpr (by decide)

/-- C10, confirmed: during the tiling phase of a player board, the score
first gains the wall-placement points of the completed pattern rows and
the accumulated floor penalty is then subtracted with u32 saturating
subtraction, so a penalty exceeding the score plus the gained points
leaves the score at exactly zero. Scores are of unsigned type (embedded as
Nat), so every score, here and after end-game bonus scoring, which only
adds, is a non-negative integer. -/
theorem C10_floor_penalty_saturates (b : PlayerBoard) :
    (b.run_tiling_phase.1.score =
      (b.score + (tilingRows b).new_score) - b.floorPenalty) ∧
    (b.score + (tilingRows b).new_score ≤ b.floorPenalty →
      b.run_tiling_phase.1.score = 0) := by
  refine ⟨rfl, ?_⟩
  intro hle
  have : b.run_tiling_phase.1.score =
      (b.score + (tilingRows b).new_score) - b.floorPenalty := rfl
  rw [this]
  omega

/-- C10 witness: a board with three floor tiles and nothing to tile has
penalty four against a score of zero, and ends the phase at exactly zero. -/
theorem C10_floor_penalty_saturates_witness :
    bFloorThree.score + (tilingRows bFloorThree).new_score ≤ bFloorThree.floorPenalty ∧
    bFloorThree.run_tiling_phase.1.score = 0 :=
  ⟨by decide, (C10_floor_penalty_saturates bFloorThree).2 (by decide)⟩

/-- C1, corrected: as stated the claim is false. The cited
sync_tree_with_state does find the matching child, but it then rebuilds a
fresh single-node tree around a clone of that child state: the subtree of
two nodes with visit counts five and three is dropped, and the new tree
has one node with zero visits. -/
theorem C1_sync_discards_subtree_counterexample :
    ((treeReuseMcts.tree.getD 1 default).game_state.players = sSeven.players) ∧
    (treeReuseMcts.tree.getD 1 default).visit_count = 5 ∧
    (treeReuseMcts.tree.getD 2 default).parent = some 1 ∧
    (treeReuseMcts.tree.getD 2 default).visit_count = 3 ∧
    (treeReuseMcts.sync_tree_with_state sSeven).tree.length = 1 ∧
    ((treeReuseMcts.sync_tree_with_state sSeven).tree.getD 0 default).visit_count = 0 ∧
    ¬ (treeReuseMcts.sync_tree_with_state sSeven).tree.length = 2 := by
  refine ⟨by decide, rfl, rfl, rfl, ?_, ?_, ?_⟩
  · decide
  · decide
  · decide

/-- C1, amended: for every tree, sync_tree_with_state always produces a
fresh single-node tree with zero statistics and no parent; its state is
the state of the first root child whose player boards match the given
state when such a child exists, and the given state otherwise. Only the
matched child state is reused; its subtree and statistics are discarded. -/
theorem C1_sync_rebuilds_single_node (m : MctsLib.Mcts) (s : GameState) :
    (m.sync_tree_with_state s).tree.length = 1 ∧
    ((m.sync_tree_with_state s).tree.getD 0 default).visit_count = 0 ∧
    ((m.sync_tree_with_state s).tree.getD 0 default).total_action_value = 0 ∧
    ((m.sync_tree_with_state s).tree.getD 0 default).children = [] ∧
    ((m.sync_tree_with_state s).tree.getD 0 default).parent = none ∧
    (m.sync_tree_with_state s).policy_handler = m.policy_handler ∧
    (match ((m.tree.getD 0 default).children.find? fun pr =>
        (m.tree.getD pr.2 default).game_state.players = s.players) with
     | some pr => ((m.sync_tree_with_state s).tree.getD 0 default).game_state =
          (m.tree.getD pr.2 default).game_state
     | none =>
          ((m.sync_tree_with_state s).tree.getD 0 default).game_state = s) := by
  cases hf : ((m.tree.getD 0 default).children.find? fun pr =>
      (m.tree.getD pr.2 default).game_state.players = s.players) with
  | none =>
      have hs : m.sync_tree_with_state s = MctsLib.Mcts.new s m.policy_handler := by
        simp only [MctsLib.Mcts.sync_tree_with_state, hf]
        rfl
      rw [hs]
      exact ⟨rfl, rfl, rfl, rfl, rfl, rfl, rfl⟩
  | some pr =>
      have hs : m.sync_tree_with_state s =
          MctsLib.Mcts.new (m.tree.getD pr.2 default).game_state m.policy_handler := by
        simp only [MctsLib.Mcts.sync_tree_with_state, hf]
        rfl
      rw [hs]
      exact ⟨rfl, rfl, rfl, rfl, rfl, rfl, rfl⟩

/-- The root node of the sign-counterexample tree, computed. -/
theorem signMcts_node0 : signMcts.tree.getD 0 default =
    { parent := none
      children := [(mvBlueFloor, 1), (mvBlueFloor, 2)]
      untried_moves := []
      visit_count := 4
      total_action_value := 0
      prior_probability := 1
      game_state := sEmpty } := rfl

/-- The implemented selection score of child 1 of the sign-counterexample
tree: its mean of one plus the shared exploration term. -/
theorem signMcts_puct1 : MctsLib.puct_score natSqrtQ signMcts.tree 1 4 =
    1 + (141 / 100 : ℚ) * (1 / 2) * natSqrtQ 4 / 2 := by
  simp only [MctsLib.puct_score, MctsLib.Node.mean_action_value]
  norm_num [signMcts, sEmpty, sBlue]

/-- The implemented selection score of child 2 of the sign-counterexample
tree: its mean of minus one plus the shared exploration term. -/
theorem signMcts_puct2 : MctsLib.puct_score natSqrtQ signMcts.tree 2 4 =
    -1 + (141 / 100 : ℚ) * (1 / 2) * natSqrtQ 4 / 2 := by
  simp only [MctsLib.puct_score, MctsLib.Node.mean_action_value]
  norm_num [signMcts, sEmpty, sBlue]

/-- The specification-worded selection score of child 1 of the
sign-counterexample tree: its mean enters negated. -/
theorem signMcts_spec1 : specPuctScore natSqrtQ signMcts.tree 1 4 =
    -1 + (141 / 100 : ℚ) * (1 / 2) * natSqrtQ 4 / 2 := by
  simp only [specPuctScore, MctsLib.Node.mean_action_value]
  norm_num [signMcts, sEmpty, sBlue]

/-- The specification-worded selection score of child 2 of the
sign-counterexample tree. -/
theorem signMcts_spec2 : specPuctScore natSqrtQ signMcts.tree 2 4 =
    1 + (141 / 100 : ℚ) * (1 / 2) * natSqrtQ 4 / 2 := by
  simp only [specPuctScore, MctsLib.Node.mean_action_value]
  norm_num [signMcts, sEmpty, sBlue]

/-- C2, corrected: as stated the claim is false. At a root with two equally
explored children of equal prior, one of mean one and one of mean minus
one, the formula of the specification, with the mean negated, is maximized
by child 2, but the implemented selection, whose score carries the mean
with a positive sign, descends into child 1. -/
theorem C2_selection_sign_counterexample :
    MctsLib.selTarget natSqrtQ signMcts.tree 0 signMcts.tree.length = 1 ∧
    maxByLast (fun ci => specPuctScore natSqrtQ signMcts.tree ci 4) [1, 2] = some 2 ∧
    specPuctScore natSqrtQ signMcts.tree 1 4 <
      specPuctScore natSqrtQ signMcts.tree 2 4 := by
  have hspec_lt : specPuctScore natSqrtQ signMcts.tree 1 4 <
      specPuctScore natSqrtQ signMcts.tree 2 4 := by
    rw [signMcts_spec1, signMcts_spec2]
    have h2 : (-1 : ℚ) < 1 := by norm_num
    linarith
  have himpl_lt : MctsLib.puct_score natSqrtQ signMcts.tree 2 4 <
      MctsLib.puct_score natSqrtQ signMcts.tree 1 4 := by
    rw [signMcts_puct1, signMcts_puct2]
    have h2 : (-1 : ℚ) < 1 := by norm_num
    linarith
  refine ⟨?_, ?_, hspec_lt⟩
  · have hlen : signMcts.tree.length = 3 := rfl
    rw [hlen, MctsLib.selTarget]
    rw [if_neg (by rw [signMcts_node0]; simp)]
    rw [if_neg (by rw [signMcts_node0]; simp)]
    rw [signMcts_node0]
    have hmax : maxByLast
        (fun child_idx => MctsLib.puct_score natSqrtQ signMcts.tree child_idx 4)
        [1, 2] = some 1 := by
      simp only [maxByLast, List.foldl]
      rw [if_neg (not_le.mpr himpl_lt)]
    simp only [List.map_cons, List.map_nil]
    rw [hmax]
    rw [MctsLib.selTarget]
    rw [if_pos (by simp [signMcts])]
    rfl
  · simp only [maxByLast, List.foldl]
    rw [if_pos (le_of_lt hspec_lt)]

/-- C2, amended: in the descent of select_and_expand, from a node with no
untried moves and at least one child, the search descends into a child of
maximal implemented selection score, where the implemented score is the
mean action value of the child, entering with a positive sign rather than
the negation worded in the specification, plus
C times prior times sqrt of parent visits over one plus child visits with
C equal to 1.41. -/
theorem C2_selection_maximizes_implemented_score (sq : Nat → ℚ)
    (tree : List MctsLib.Node) (idx fuel : Nat)
    (h1 : (tree.getD idx default).untried_moves = [])
    (h2 : (tree.getD idx default).children ≠ []) :
    ∃ c ∈ (tree.getD idx default).children.map Prod.snd,
      MctsLib.selTarget sq tree idx (fuel + 1) = MctsLib.selTarget sq tree c fuel ∧
      (∀ c2 ∈ (tree.getD idx default).children.map Prod.snd,
        MctsLib.puct_score sq tree c2 (tree.getD idx default).visit_count ≤
          MctsLib.puct_score sq tree c (tree.getD idx default).visit_count) ∧
      (∀ c2, MctsLib.puct_score sq tree c2 (tree.getD idx default).visit_count =
        (tree.getD c2 default).mean_action_value +
          (141 / 100 : ℚ) * (tree.getD c2 default).prior_probability *
            sq (tree.getD idx default).visit_count /
            (1 + (tree.getD c2 default).visit_count)) := by
  have hne : ¬ ((tree.getD idx default).children.map Prod.snd).isEmpty := by
    intro hmap
    exact h2 (by simpa [List.isEmpty_iff, List.map_eq_nil] using hmap)
  obtain ⟨x, hx⟩ := maxByLast_isSome
    (fun child_idx => MctsLib.puct_score sq tree child_idx
      (tree.getD idx default).visit_count)
    ((tree.getD idx default).children.map Prod.snd) hne
  obtain ⟨hxmem, hxmax⟩ := maxByLast_spec _ _ _ hx
  refine ⟨x, hxmem, ?_, hxmax, fun c2 => rfl⟩
  rw [MctsLib.selTarget]
  rw [if_neg (by rw [h1]; simp)]
  rw [if_neg (by simpa [List.isEmpty_iff] using h2)]
  rw [hx]
  rfl

/-- C2 witness: at the sign-counterexample root, the descent target exists,
is a child, and maximizes the implemented score. -/
theorem C2_selection_maximizes_implemented_score_witness :
    ∃ c ∈ (signMcts.tree.getD 0 default).children.map Prod.snd,
      MctsLib.selTarget natSqrtQ signMcts.tree 0 (2 + 1) =
        MctsLib.selTarget natSqrtQ signMcts.tree c 2 ∧
      (∀ c2 ∈ (signMcts.tree.getD 0 default).children.map Prod.snd,
        MctsLib.puct_score natSqrtQ signMcts.tree c2
            (signMcts.tree.getD 0 default).visit_count ≤
          MctsLib.puct_score natSqrtQ signMcts.tree c
            (signMcts.tree.getD 0 default).visit_count) ∧
      (∀ c2, MctsLib.puct_score natSqrtQ signMcts.tree c2
          (signMcts.tree.getD 0 default).visit_count =
        (signMcts.tree.getD c2 default).mean_action_value +
          (141 / 100 : ℚ) * (signMcts.tree.getD c2 default).prior_probability *
            natSqrtQ (signMcts.tree.getD 0 default).visit_count /
            (1 + (signMcts.tree.getD c2 default).visit_count)) :=
  C2_selection_maximizes_implemented_score natSqrtQ signMcts.tree 0 2 rfl (by decide)

/-- C3, the code against the claim: one search iteration of the engine of
mcts_lib depends only on the arena and on the simulate operation of the
policy, never consulting evaluate; and at a fresh tree over a state with
six legal moves, where evaluate returns a two-entry move map, one
iteration creates exactly one child by popping one untried move, not one
child per map entry. -/
theorem C3_search_never_calls_evaluate :
    (∀ (sq : Nat → ℚ) (m1 m2 : MctsLib.Mcts), m1.tree = m2.tree →
      m1.policy_handler.simulate = m2.policy_handler.simulate →
      (m1.step sq).tree = (m2.step sq).tree) ∧
    ((MctsLib.Mcts.new sBlue twoMovePolicy).step natSqrtQ).tree.length = 2 ∧
    (((MctsLib.Mcts.new sBlue twoMovePolicy).step natSqrtQ).tree.getD 0
      default).children.length = 1 ∧
    ((twoMovePolicy.evaluate sBlue).2).length = 2 := by
  refine ⟨?_, by decide, by decide, rfl⟩
  intro sq m1 m2 ht hs
  have hse : (m1.select_and_expand sq).1.tree = (m2.select_and_expand sq).1.tree ∧
      (m1.select_and_expand sq).2 = (m2.select_and_expand sq).2 := by
    simp only [MctsLib.Mcts.select_and_expand, ht]
    cases hlast : (m2.tree.getD (MctsLib.selTarget sq m2.tree 0 m2.tree.length)
        default).untried_moves.getLast? with
    | none => exact ⟨ht, rfl⟩
    | some mv => exact ⟨rfl, rfl⟩
  show MctsLib.backpropagation (m1.select_and_expand sq).1.tree
      (m1.select_and_expand sq).2
      (m1.policy_handler.simulate
        (((m1.select_and_expand sq).1.tree.getD (m1.select_and_expand sq).2
          default).game_state)) =
    MctsLib.backpropagation (m2.select_and_expand sq).1.tree
      (m2.select_and_expand sq).2
      (m2.policy_handler.simulate
        (((m2.select_and_expand sq).1.tree.getD (m2.select_and_expand sq).2
          default).game_state))
  rw [hse.1, hse.2, hs]

/-- C3 witness: two engines over the same state whose policies share
simulate but return different evaluate results produce identical arenas
after one iteration. -/
theorem C3_search_never_calls_evaluate_witness :
    ((MctsLib.Mcts.new sBlue twoMovePolicy).step natSqrtQ).tree =
      ((MctsLib.Mcts.new sBlue evalDiffPolicy).step natSqrtQ).tree :=
  C3_search_never_calls_evaluate.1 natSqrtQ _ _ rfl rfl

/-- One iteration at a single-node arena whose root is terminal, with no
untried moves and no children, only bumps the root statistics. -/
theorem MctsLib.step_terminal (sq : Nat → ℚ) (m : MctsLib.Mcts)
    (h1 : m.tree.length = 1)
    (h2 : (m.tree.getD 0 default).untried_moves = [])
    (h3 : (m.tree.getD 0 default).children = []) :
    (m.step sq).tree.length = 1 ∧
    ((m.step sq).tree.getD 0 default).untried_moves = [] ∧
    ((m.step sq).tree.getD 0 default).children = [] := by
  have hsel : MctsLib.selTarget sq m.tree 0 m.tree.length = 0 := by
    rw [h1, MctsLib.selTarget]
    rw [if_neg (by rw [h2]; simp)]
    rw [if_pos (by rw [h3]; simp)]
  have hlast : (m.tree.getD 0 default).untried_moves.getLast? = none := by
    rw [h2]
    rfl
  have hse : m.select_and_expand sq = (m, 0) := by
    simp only [MctsLib.Mcts.select_and_expand, hsel, hlast]
  have hbp : ∀ scores, MctsLib.backpropagation m.tree 0 scores =
      m.tree.set 0 (MctsLib.bumpNode scores (m.tree.getD 0 default)) := by
    intro scores
    rw [MctsLib.backpropagation, h1]
    rw [MctsLib.backpropAux]
    cases hp : (m.tree.getD 0 default).parent with
    | none => rfl
    | some q => rfl
  have hstep : (m.step sq).tree =
      m.tree.set 0 (MctsLib.bumpNode
        (m.policy_handler.simulate
          (((m.select_and_expand sq).1.tree.getD (m.select_and_expand sq).2
            default).game_state))
        (m.tree.getD 0 default)) := by
    show MctsLib.backpropagation (m.select_and_expand sq).1.tree
        (m.select_and_expand sq).2 _ = _
    rw [hse]
    exact hbp _
  have hpos : 0 < m.tree.length := by omega
  refine ⟨?_, ?_, ?_⟩
  · rw [hstep]
    simpa using h1
  · rw [hstep, getD_set_self _ _ _ _ hpos]
    rw [← h2]
    rfl
  · rw [hstep, getD_set_self _ _ _ _ hpos]
    rw [← h3]
    rfl

/-- C6, confirmed: best_move returns none exactly when the root has no
children; when it returns a move, that move belongs to a root child of
maximal visit count rather than maximal mean value; and after any number
of search iterations from a fresh tree over a state with no legal moves
the root never gains children, so best_move yields no move. -/
theorem C6_best_move_most_visited :
    (∀ m : MctsLib.Mcts, ¬ m.tree.isEmpty →
      (m.best_move = none ↔ (m.tree.getD 0 default).children = [])) ∧
    (∀ (m : MctsLib.Mcts) (mv : Move), m.best_move = some mv →
      ∃ pr, pr ∈ (m.tree.getD 0 default).children ∧ pr.1 = mv ∧
        ∀ pr2 ∈ (m.tree.getD 0 default).children,
          (m.tree.getD pr2.2 default).visit_count ≤
            (m.tree.getD pr.2 default).visit_count) ∧
    (∀ (sq : Nat → ℚ) (s : GameState) (p : MctsLib.MctsPolicy) (n : Nat),
      s.get_legal_moves = [] →
      ((MctsLib.Mcts.new s p).run_search sq n).best_move = none) := by
  refine ⟨?_, ?_, ?_⟩
  · intro m hne
    rw [MctsLib.Mcts.best_move, if_neg hne]
    constructor
    · intro hnone
      by_contra hch
      have hch2 : ¬ ((m.tree.getD 0 default).children).isEmpty := by
        simpa [List.isEmpty_iff] using hch
      obtain ⟨x, hx⟩ := maxByLast_isSome
        (fun pr => (m.tree.getD pr.2 default).visit_count) _ hch2
      rw [hx] at hnone
      simp at hnone
    · intro hch
      rw [hch]
      rfl
  · intro m mv hsome
    rw [MctsLib.Mcts.best_move] at hsome
    by_cases hne : m.tree.isEmpty
    · rw [if_pos hne] at hsome
      exact absurd hsome (by simp)
    · rw [if_neg hne] at hsome
      obtain ⟨pr, hpr, hpr2⟩ := Option.map_eq_some'.mp hsome
      obtain ⟨hmem, hmax⟩ := maxByLast_spec _ _ _ hpr
      exact ⟨pr, hmem, hpr2, hmax⟩
  · intro sq s p n hleg
    have key : ∀ k, (((MctsLib.Mcts.new s p).run_search sq k).tree.length = 1) ∧
        ((((MctsLib.Mcts.new s p).run_search sq k).tree.getD 0 default).untried_moves = []) ∧
        ((((MctsLib.Mcts.new s p).run_search sq k).tree.getD 0 default).children = []) := by
      intro k
      induction k with
      | zero =>
          refine ⟨rfl, ?_, rfl⟩
          show (MctsLib.Node.new none 1 s).untried_moves = []
          rw [MctsLib.Node.new]
          exact hleg
      | succ k ih =>
          have hrw : (MctsLib.Mcts.new s p).run_search sq (k + 1) =
              ((MctsLib.Mcts.new s p).run_search sq k).step sq := by
            simp only [MctsLib.Mcts.run_search]
            rw [Function.iterate_succ_apply']
          rw [hrw]
          exact MctsLib.step_terminal sq _ ih.1 ih.2.1 ih.2.2
    have hk := key n
    rw [MctsLib.Mcts.best_move]
    rw [if_neg (by
      intro hcon
      rw [List.isEmpty_iff] at hcon
      rw [hcon] at hk
      simp at hk)]
    rw [hk.2.2]
    rfl

/-- C6 witness: from a fresh tree over the moveless all-empty state, three
search iterations still yield no move. -/
theorem C6_best_move_most_visited_witness :
    ((MctsLib.Mcts.new sEmpty trivialPolicy).run_search natSqrtQ 3).best_move = none :=
  C6_best_move_most_visited.2.2 natSqrtQ sEmpty trivialPolicy 3 (by decide)

/-- C8, confirmed: in the rollout UCT agent, from a fully expanded node
with children, the selection loop descends into the child of maximal UCT
priority; a child of zero visits has priority infinity, so whenever some
child is unvisited the chosen child is unvisited; for a visited child the
priority is its mean score from the perspective of the acting player at
the current node plus two times the square root of the natural log of the
parent visits over the child visits, the log and square root being given
as the functions lnF and sqF. -/
theorem C8_uct_selects_max_priority (lnF sqF : ℚ → ℚ)
    (nodes : List MctsAi.Node) (idx fuel : Nat)
    (h1 : (nodes.getD idx default).untried_actions = [])
    (h2 : (nodes.getD idx default).children ≠ []) :
    MctsAi.selLoop lnF sqF nodes idx (fuel + 1) =
      MctsAi.selLoop lnF sqF nodes (MctsAi.bestUctChild lnF sqF nodes idx) fuel ∧
    MctsAi.bestUctChild lnF sqF nodes idx ∈ (nodes.getD idx default).children ∧
    (∀ c ∈ (nodes.getD idx default).children,
      MctsAi.uct lnF sqF nodes (nodes.getD idx default) c ≤
        MctsAi.uct lnF sqF nodes (nodes.getD idx default)
          (MctsAi.bestUctChild lnF sqF nodes idx)) ∧
    ((∃ c ∈ (nodes.getD idx default).children, (nodes.getD c default).visits = 0) →
      (nodes.getD (MctsAi.bestUctChild lnF sqF nodes idx) default).visits = 0) ∧
    (∀ c, (nodes.getD c default).visits ≠ 0 →
      MctsAi.uct lnF sqF nodes (nodes.getD idx default) c =
        (((nodes.getD c default).scores.getD
            (nodes.getD idx default).game_state.current_player_idx 0 /
            (nodes.getD c default).visits +
          2 * sqF (lnF (nodes.getD idx default).visits /
            (nodes.getD c default).visits) : ℚ) : WithTop ℚ)) ∧
    (∀ c, (nodes.getD c default).visits = 0 →
      MctsAi.uct lnF sqF nodes (nodes.getD idx default) c = ⊤) := by
  have hch2 : ¬ ((nodes.getD idx default).children).isEmpty := by
    simpa [List.isEmpty_iff] using h2
  obtain ⟨x, hx⟩ := maxByLast_isSome
    (fun child_index => MctsAi.uct lnF sqF nodes (nodes.getD idx default) child_index)
    ((nodes.getD idx default).children) hch2
  obtain ⟨hxmem, hxmax⟩ := maxByLast_spec _ _ _ hx
  have hbest : MctsAi.bestUctChild lnF sqF nodes idx = x := by
    rw [MctsAi.bestUctChild, hx]
    rfl
  have htop : ∀ c, (nodes.getD c default).visits = 0 →
      MctsAi.uct lnF sqF nodes (nodes.getD idx default) c = ⊤ := by
    intro c hc
    rw [MctsAi.uct, if_pos hc]
  have hval : ∀ c, (nodes.getD c default).visits ≠ 0 →
      MctsAi.uct lnF sqF nodes (nodes.getD idx default) c =
        (((nodes.getD c default).scores.getD
            (nodes.getD idx default).game_state.current_player_idx 0 /
            (nodes.getD c default).visits +
          2 * sqF (lnF (nodes.getD idx default).visits /
            (nodes.getD c default).visits) : ℚ) : WithTop ℚ) := by
    intro c hc
    rw [MctsAi.uct, if_neg hc]
  refine ⟨?_, hbest ▸ hxmem, hbest ▸ hxmax, ?_, hval, htop⟩
  · rw [MctsAi.selLoop]
    rw [if_neg (by rw [h1]; simp)]
    rw [if_neg hch2]
  · intro ⟨c0, hc0mem, hc0v⟩
    by_contra hbv
    have h1top : MctsAi.uct lnF sqF nodes (nodes.getD idx default) c0 = ⊤ :=
      htop c0 hc0v
    have h2le := hxmax c0 hc0mem
    rw [h1top] at h2le
    have hxtop : MctsAi.uct lnF sqF nodes (nodes.getD idx default) x = ⊤ :=
      top_le_iff.mp h2le
    rw [hval x (by rw [← hbest]; exact hbv)] at hxtop
    exact WithTop.coe_ne_top hxtop

/-- C8 witness: at a concrete fully expanded root with a visited child of
positive mean and an unvisited child, the chosen child is the unvisited
one. -/
theorem C8_uct_selects_max_priority_witness :
    (uctNodes.getD (MctsAi.bestUctChild id id uctNodes 0) default).visits = 0 :=
  (C8_uct_selects_max_priority id id uctNodes 0 0 rfl (by decide)).2.2.2.1
    ⟨2, by decide, rfl⟩

/-- C7, confirmed: after running any number of iterations from a fresh
tree, each node holds a visit count equal to the number of iterations
whose selection and backpropagation path passed through it; in particular
the root visit count equals the iteration count, and the visit counts of
the root children sum, together with the number of iterations whose path
terminated at the root itself, to the iteration count. -/
theorem C7_visit_counts (sq : Nat → ℚ) (s : GameState) (p : MctsLib.MctsPolicy)
    (n : Nat) :
    (∀ i, i < ((MctsLib.Mcts.new s p).run_search sq n).tree.length →
      ((((MctsLib.Mcts.new s p).run_search sq n).tree.getD i default).visit_count =
        (List.range n).countP
          (fun k => decide (i ∈ ((MctsLib.Mcts.new s p).run_search sq k).pathOf sq)))) ∧
    ((((MctsLib.Mcts.new s p).run_search sq n).tree.getD 0 default).visit_count = n) ∧
    (((((MctsLib.Mcts.new s p).run_search sq n).tree.getD 0 default).children.map
        fun pr => (((MctsLib.Mcts.new s p).run_search sq n).tree.getD pr.2
          default).visit_count).sum
      + (List.range n).countP
          (fun k => decide (((MctsLib.Mcts.new s p).run_search sq k).startIdx sq = 0))
      = n) := by
  obtain ⟨h1, h2, h3⟩ := MctsLib.run_search_counts sq s p n
  exact ⟨h2, h1, h3⟩

/-- C7 witness: two iterations from a fresh tree over the moveless
all-empty state give the root two visits, matching the count of iterations
whose path contains the root. -/
theorem C7_visit_counts_witness :
    0 < ((MctsLib.Mcts.new sEmpty trivialPolicy).run_search natSqrtQ 2).tree.length ∧
    (((MctsLib.Mcts.new sEmpty trivialPolicy).run_search natSqrtQ 2).tree.getD 0
      default).visit_count = 2 ∧
    ((((MctsLib.Mcts.new sEmpty trivialPolicy).run_search natSqrtQ 2).tree.getD 0
      default).visit_count =
        (List.range 2).countP
          (fun k => decide ((0 : Nat) ∈
            ((MctsLib.Mcts.new sEmpty trivialPolicy).run_search natSqrtQ k).pathOf
              natSqrtQ))) :=
  ⟨by decide, (C7_visit_counts natSqrtQ sEmpty trivialPolicy 2).2.1,
    (C7_visit_counts natSqrtQ sEmpty trivialPolicy 2).1 0 (by decide)⟩

end Azul
